import Mathlib

/-!
# memcpy-benchmark: a shallow embedding of `main.cpp`

The program allocates two buffers of `size` bytes, copies one onto the other with
one of five strategies, compares them with `memcmp` and prints a timing line.

Modelling conventions.

* Memory is a flat map from addresses to bytes (`Mem`); pointers are addresses.
* `uint64_t` / `size_t` arithmetic is arithmetic on `Nat` reduced modulo `2 ^ 64`.
* Everything observable that a function does is appended to a log of `Event`s:
  vector loads and stores, library calls, printed lines.
* What the environment decides is an input: the result of each `malloc`
  (pointer and the indeterminate contents of the fresh block), the elapsed
  microseconds measured by each `timed_scope`, and the order in which the worker
  threads of a multithreaded run take effect.
* `_mm_load_ps` and `_mm_store_ps` are the aligned vector accesses: at an
  address that is not a multiple of 16 they raise a fault, which kills the
  process (`fault`).
* `while (size)` in `copy_with_sse` need not terminate, so the loop takes a
  bound on the number of iterations it may perform (`fuel`); `hang` says that
  the loop was still running when the bound was reached.
* The worker threads of a multithreaded run are run one after the other, each
  copy as a whole, in an order chosen by the environment.
* The figures of a timing line are exact rationals; rounding to `double` and
  the formatting of `std::cout` are not modelled.
* The `int` constants `workers_number`, `calls` and `repetitions` are
  non-negative and are natural numbers here; their conversion to `uint64_t`
  leaves them unchanged.
-/

namespace MemcpyBenchmark

/-! ## Machine arithmetic -/

/-- Product of two `int` values: `none` when the result does not fit in a signed
32-bit integer (signed overflow, ill-formed in a constant expression). -/
def int_mul (a b : Int) : Option Int :=
  if -(2 : Int) ^ 31 ≤ a * b ∧ a * b < (2 : Int) ^ 31 then some (a * b) else none

/-- Conversion of a signed integer to `uint64_t`. -/
def u64_ofInt (i : Int) : Nat := (i % (2 : Int) ^ 64).toNat

/-- Multiplication of `uint64_t` values (wraps around). -/
def u64_mul (a b : Nat) : Nat := (a * b) % 2 ^ 64

/-- Subtraction of `uint64_t` values (wraps around). -/
def u64_sub (a b : Nat) : Nat := (a + (2 ^ 64 - b % 2 ^ 64)) % 2 ^ 64

/-- Division of `uint64_t` values. -/
def u64_div (a b : Nat) : Nat := (a / b) % 2 ^ 64

/-! ## Constants (`main.cpp` lines 9-13) -/

/-- Source: `constexpr int size_gb = 12;`. -/
def size_gb : Int := 12

/-- The `int` sub-expression `1024 * 1024 * 1024` of the initialiser of `size`,
evaluated left to right in `int`. -/
def size_int_part : Option Int := (int_mul 1024 1024).bind (fun p => int_mul p 1024)

/-- Source: `constexpr uint64_t size = 1024 * 1024 * 1024* (uint64_t)size_gb;`. -/
def size : Nat := u64_mul (u64_ofInt (size_int_part.getD 0)) (u64_ofInt size_gb)

/-- Source: `constexpr int workers_number{8};`. -/
def workers_number : Nat := 8

/-- Source: `constexpr int calls{1048576};`. -/
def calls : Nat := 1048576

/-- Source: `constexpr int repetitions{8};`. -/
def repetitions : Nat := 8

/-- Source: `size_t per_call_size{size / calls};` in
`single_thread_memcpy_multiple`. -/
def per_call_size : Nat := u64_div size calls

/-- Source: `size_t per_worker_size{size / workers_number};` in
`multithread_copy_helper`. -/
def per_worker_size : Nat := u64_div size workers_number

/-! ## Memory, events, world -/

/-- Byte-addressed memory. -/
abbrev Mem := Nat → Nat

/-- Observable actions. -/
inductive Event where
  /-- A 16-byte `_mm_load_ps` from the address. -/
  | load (addr : Nat)
  /-- A 16-byte `_mm_store_ps` to the address. -/
  | store (addr : Nat)
  /-- A call `memcpy(dst, src, n)`. -/
  | memcpy (dst src n : Nat)
  /-- A call `malloc(n)` and the pointer it returned (`0` is the null pointer). -/
  | malloc (n : Nat) (ptr : Nat)
  /-- A call `free(ptr)`. -/
  | free (ptr : Nat)
  /-- A call `memcmp` and its result. -/
  | memcmp (res : Int)
  /-- A line written to `std::cout`. -/
  | print (line : String)
  /-- The line of a `timed_scope`: its name, the millisecond figure and the
  bandwidth figure (`none` when the quotient is not finite). -/
  | timing (name : String) (ms : ℚ) (bw : Option ℚ)
  deriving DecidableEq

/-- Memory and everything done so far. -/
structure World where
  mem : Mem
  log : List Event

/-- Outcome of a copy function. -/
inductive Outcome where
  /-- The function returned. -/
  | done (w : World)
  /-- A vector access at an address that is not 16-byte aligned raised a fault:
  the process is killed. -/
  | fault
  /-- The copy loop was still running when its iteration bound was reached. -/
  | hang

/-- Sequencing of copies: the next one runs only after a normal return. -/
def Outcome.bind (r : Outcome) (k : World → Outcome) : Outcome :=
  match r with
  | .done w => k w
  | .fault => .fault
  | .hang => .hang

/-- Outcome of a function of the program. -/
inductive Result (α : Type) where
  /-- The function returned. -/
  | ok (a : α) (w : World)
  /-- The function called `exit(code)`. -/
  | exit (code : Nat) (w : World)
  /-- The process was killed by a fault. -/
  | fault
  /-- A copy loop was still running when its iteration bound was reached. -/
  | hang

/-- Sequencing: the continuation runs only after a normal return. -/
def Result.bind {α β : Type} (r : Result α) (k : α → World → Result β) : Result β :=
  match r with
  | .ok a w => k a w
  | .exit c w => .exit c w
  | .fault => .fault
  | .hang => .hang

/-- The copy step of a benchmark function followed by the rest of the
function: the rest runs on the world the copy step returned; a copy step that
faults kills the process, and one that does not return leaves the function
hanging. -/
def after_copy (r : Outcome) (k : World → Result Unit) : Result Unit :=
  match r with
  | .done w => k w
  | .fault => Result.fault
  | .hang => Result.hang

/-- Append an event to the log. -/
def World.emit (w : World) (e : Event) : World := { w with log := w.log ++ [e] }

/-- The memory in which the `n` bytes at `src` have been copied to `dst`. -/
def copy_bytes (m : Mem) (dst src n : Nat) : Mem :=
  fun a => if dst ≤ a ∧ a < dst + n then m (src + (a - dst)) else m a

/-- Library `memcpy(dst, src, n)`: copies `n` bytes. C leaves the call undefined
when the two ranges overlap; here the source bytes are all read before any is
written. -/
def memcpy (w : World) (dst src n : Nat) : Outcome :=
  Outcome.done
    { mem := copy_bytes w.mem dst src n, log := w.log ++ [Event.memcpy dst src n] }

/-- First difference of the `n` bytes at `p` and at `q`, `0` when there is none. -/
def memcmp_bytes (m : Mem) (p q : Nat) : Nat → Int
  | 0 => 0
  | n + 1 => if m p = m q then memcmp_bytes m (p + 1) (q + 1) n else (m p : Int) - (m q : Int)

/-! ## `copy_with_sse` (`main.cpp` lines 156-182) -/

/-- Value of a 128-bit register: its bytes, by index. -/
abbrev M128 := Nat → Nat

/-- Source: `sizeof(__m128)` and `sizeof(__m128i)`. -/
def sizeof_m128 : Nat := 16

/-- Intrinsic `_mm_load_ps(p)`, the aligned load: reads the 16 bytes at `p`
when `p` is a multiple of 16; otherwise the access faults (`none`). -/
def _mm_load_ps (w : World) (p : Nat) : Option (M128 × World) :=
  if p % 16 = 0 then some (fun i => w.mem (p + i), w.emit (Event.load p)) else none

/-- Intrinsic `_mm_store_ps(p, v)`, the aligned store: writes the 16 bytes of
`v` at `p` when `p` is a multiple of 16; otherwise the access faults (`none`). -/
def _mm_store_ps (w : World) (p : Nat) (v : M128) : Option World :=
  if p % 16 = 0 then
    some { mem := fun x => if p ≤ x ∧ x < p + 16 then v (x - p) else w.mem x,
           log := w.log ++ [Event.store p] }
  else none

/-- Source: `size_t stride = 8 * sizeof(__m128i);`. -/
def stride : Nat := u64_mul 8 sizeof_m128

/-- The eight registers `a`, ..., `h` of one iteration of the loop. -/
structure Regs where
  a : M128
  b : M128
  c : M128
  d : M128
  e : M128
  f : M128
  g : M128
  h : M128

/-- The eight loads of one iteration of the loop; `none` when one of them
faults. -/
def copy_with_sse_loads (w : World) (src : Nat) : Option (Regs × World) := do
  let (a, w) ← _mm_load_ps w (src + 0 * sizeof_m128)
  let (b, w) ← _mm_load_ps w (src + 1 * sizeof_m128)
  let (c, w) ← _mm_load_ps w (src + 2 * sizeof_m128)
  let (d, w) ← _mm_load_ps w (src + 3 * sizeof_m128)
  let (e, w) ← _mm_load_ps w (src + 4 * sizeof_m128)
  let (f, w) ← _mm_load_ps w (src + 5 * sizeof_m128)
  let (g, w) ← _mm_load_ps w (src + 6 * sizeof_m128)
  let (h, w) ← _mm_load_ps w (src + 7 * sizeof_m128)
  pure (⟨a, b, c, d, e, f, g, h⟩, w)

/-- The eight stores of one iteration of the loop; `none` when one of them
faults. -/
def copy_with_sse_stores (w : World) (dst : Nat) (r : Regs) : Option World := do
  let w ← _mm_store_ps w (dst + 0 * sizeof_m128) r.a
  let w ← _mm_store_ps w (dst + 1 * sizeof_m128) r.b
  let w ← _mm_store_ps w (dst + 2 * sizeof_m128) r.c
  let w ← _mm_store_ps w (dst + 3 * sizeof_m128) r.d
  let w ← _mm_store_ps w (dst + 4 * sizeof_m128) r.e
  let w ← _mm_store_ps w (dst + 5 * sizeof_m128) r.f
  let w ← _mm_store_ps w (dst + 6 * sizeof_m128) r.g
  let w ← _mm_store_ps w (dst + 7 * sizeof_m128) r.h
  pure w

/-- One iteration of the loop, without the three updates at its end: the eight
loads into `a`, ..., `h`, then the eight stores; `none` when an access faults. -/
def copy_with_sse_body (w : World) (dst src : Nat) : Option World := do
  let (r, w) ← copy_with_sse_loads w src
  copy_with_sse_stores w dst r

/-- Source: `copy_with_sse(dst, src, size)`; `fuel` bounds the number of
iterations of `while (size)`. The call returns when `size` reaches zero, is
killed by the first access that faults, and hangs when the bound is reached
with `size` still non-zero. -/
def copy_with_sse (fuel : Nat) (w : World) (dst src size : Nat) : Outcome :=
  if size = 0 then Outcome.done w
  else
    match fuel with
    | 0 => Outcome.hang
    | k + 1 =>
      match copy_with_sse_body w dst src with
      | none => Outcome.fault
      | some w1 =>
        copy_with_sse k w1 (dst + stride) (src + stride) (u64_sub size stride)

/-! ## Harness (`main.cpp` lines 15-59) -/

/-- What one `malloc` call returns, chosen by the environment: the pointer (`0`
is the null pointer) and the indeterminate bytes found in the fresh block. -/
structure Alloc where
  ptr : Nat
  fill : Nat → Nat

/-- What the environment decides during a run of `main`: the result of the
`k`-th `malloc`, the microseconds measured by the `r`-th `timed_scope`, and the
order in which the worker threads of the `r`-th benchmark run take effect. -/
structure Env where
  alloc : Nat → Alloc
  took : Nat → Int
  order : Nat → List Nat

/-- Library `malloc(n)` returning what the environment chose. -/
def malloc (w : World) (n : Nat) (a : Alloc) : Nat × World :=
  (a.ptr,
   { mem := if a.ptr = 0 then w.mem
            else fun x => if a.ptr ≤ x ∧ x < a.ptr + n then a.fill (x - a.ptr) else w.mem x,
     log := w.log ++ [Event.malloc n a.ptr] })

/-- Library `free(p)`. -/
def free (w : World) (p : Nat) : World := w.emit (Event.free p)

/-- Library `memcmp(p, q, n)`. -/
def memcmp (w : World) (p q n : Nat) : Int × World :=
  (memcmp_bytes w.mem p q n, w.emit (Event.memcmp (memcmp_bytes w.mem p q n)))

/-- Source: `std::cout << line << std::endl`. -/
def cout (w : World) (line : String) : World := w.emit (Event.print line)

/-- Millisecond figure of a timing line, source: `took/1000.0`. -/
def ms_figure (took : Int) : ℚ := (took : ℚ) / 1000

/-- Bandwidth figure of a timing line, source: `size / (took * 1e3)`; the
quotient is not finite when `took` is zero. -/
def bw_figure (took : Int) : Option ℚ :=
  if took = 0 then none else some ((size : ℚ) / ((took : ℚ) * 1000))

/-- Source: `~timed_scope()`, run when the timed block is left; `took` is the
elapsed time in whole microseconds. The two figures are kept as exact
rationals, not as rounded and formatted `double`s. -/
def timed_scope (name : String) (took : Int) (w : World) : World :=
  w.emit (Event.timing name (ms_figure took) (bw_figure took))

/-- Source: `init_buffers(buf1, buf2)`; returns the two pointers. -/
def init_buffers (a1 a2 : Alloc) (w : World) : Result (Nat × Nat) :=
  let (buf1, w) := malloc w size a1
  if buf1 = 0 then Result.exit 1 (cout w "Error in malloc")
  else
    let (buf2, w) := malloc w size a2
    if buf2 = 0 then Result.exit 1 (cout w "Error in malloc")
    else Result.ok (buf1, buf2) w

/-- Source: `free_buffers(buf1, buf2)`. -/
def free_buffers (w : World) (buf1 buf2 : Nat) : World :=
  free (free w buf1) buf2

/-- The comparison and report shared, verbatim, by all benchmark functions:
`memcmp(dst, src, size)`, then `Error in compare` and `exit(1)`, or `Compare ok`
and `free_buffers`. -/
def compare_and_free (w : World) (dst src : Nat) : Result Unit :=
  let (res, w) := memcmp w dst src size
  if res ≠ 0 then Result.exit 1 (cout w "Error in compare")
  else
    let w := cout w "Compare ok"
    Result.ok () (free_buffers w dst src)

/-! ## The five benchmark runs (`main.cpp` lines 61-207) -/

/-- Source: `single_thread_memcpy()`. -/
def single_thread_memcpy (a1 a2 : Alloc) (took : Int) (w : World) : Result Unit :=
  (init_buffers a1 a2 w).bind fun p w =>
    let dst := p.1
    let src := p.2
    after_copy (memcpy w dst src size) fun w =>
      let w := timed_scope "Single thread memcpy " took w
      compare_and_free w dst src

/-- The loop of `single_thread_memcpy_multiple`: `memcpy` of `per_call_size`
bytes at offset `i * per_call_size` for `i = 0, ..., n - 1`. -/
def memcpy_loop (n per_call_size dst src : Nat) (w : World) : Outcome :=
  (List.range n).foldl
    (fun r i => r.bind fun w =>
      memcpy w (dst + u64_mul i per_call_size) (src + u64_mul i per_call_size) per_call_size)
    (Outcome.done w)

/-- Source: `single_thread_memcpy_multiple()`. -/
def single_thread_memcpy_multiple (a1 a2 : Alloc) (took : Int) (w : World) : Result Unit :=
  (init_buffers a1 a2 w).bind fun p w =>
    let dst := p.1
    let src := p.2
    after_copy (memcpy_loop calls per_call_size dst src w) fun w =>
      let w := timed_scope "Single thread memcpy multicall" took w
      compare_and_free w dst src

/-- The worker threads of `multithread_copy_helper`, in the order in which
they are created: worker `i` calls `function` on the `i`-th slice. -/
def workers (function : World → Nat → Nat → Nat → Outcome)
    (dst src per_worker_size : Nat) : List (World → Outcome) :=
  (List.range workers_number).map fun i w =>
    function w (dst + u64_mul i per_worker_size) (src + u64_mul i per_worker_size)
      per_worker_size

/-- Running the worker threads until all are joined; `order` lists the workers
in the order in which their copies take effect. A worker that faults kills the
process. -/
def run_workers (ws : List (World → Outcome)) : List Nat → World → Outcome
  | [], w => Outcome.done w
  | i :: rest, w =>
    (match ws.get? i with
      | some worker => worker w
      | none => Outcome.done w).bind fun w1 => run_workers ws rest w1

/-- Source: `multithread_copy_helper(function, name)`. -/
def multithread_copy_helper (function : World → Nat → Nat → Nat → Outcome)
    (name : String) (order : List Nat) (a1 a2 : Alloc) (took : Int) (w : World) :
    Result Unit :=
  (init_buffers a1 a2 w).bind fun p w =>
    let dst := p.1
    let src := p.2
    after_copy (run_workers (workers function dst src per_worker_size) order w) fun w =>
      let w := timed_scope ("Multithread " ++ name ++ " thread memcpy") took w
      compare_and_free w dst src

/-- Source: `single_thread_sse()`. -/
def single_thread_sse (fuel : Nat) (a1 a2 : Alloc) (took : Int) (w : World) : Result Unit :=
  (init_buffers a1 a2 w).bind fun p w =>
    let dst := p.1
    let src := p.2
    after_copy (copy_with_sse fuel w dst src size) fun w =>
      let w := timed_scope "copy_with_sse memcpy " took w
      compare_and_free w dst src

/-! ## `main` (`main.cpp` lines 210-238) -/

/-- Source: `for (auto i = 0; i < n; i++) body`, where the `i`-th iteration is
the benchmark run number `first + i` of the program. -/
def for_loop (n first : Nat) (body : Nat → World → Result Unit) (w : World) : Result Unit :=
  (List.range n).foldl (fun r i => r.bind fun _ w => body (first + i) w) (Result.ok () w)

/-- The `r`-th benchmark run of the program gets the allocations `2 r` and
`2 r + 1` and the `r`-th elapsed time. -/
def nth_run (env : Env) (run : Alloc → Alloc → Int → World → Result Unit) (r : Nat)
    (w : World) : Result Unit :=
  run (env.alloc (2 * r)) (env.alloc (2 * r + 1)) (env.took r) w

/-- Source: `main()`. -/
def main (env : Env) (fuel : Nat) (w : World) : Result Unit :=
  let w := cout w ("Memcpy test -- copying " ++ toString size_gb ++ "GB ")
  (for_loop repetitions (0 * repetitions)
    (nth_run env (single_thread_sse fuel)) w).bind fun _ w =>
  (for_loop repetitions (1 * repetitions)
    (nth_run env single_thread_memcpy) w).bind fun _ w =>
  (for_loop repetitions (2 * repetitions)
    (nth_run env single_thread_memcpy_multiple) w).bind fun _ w =>
  (for_loop repetitions (3 * repetitions)
    (fun r => nth_run env (multithread_copy_helper memcpy "memcpy" (env.order r)) r) w).bind
      fun _ w =>
  for_loop repetitions (4 * repetitions)
    (fun r => nth_run env (multithread_copy_helper (copy_with_sse fuel) "sse" (env.order r)) r) w

/-! ## Observations on a log -/

/-- Names of the timing lines, in the order printed. -/
def timing_names (log : List Event) : List String :=
  log.filterMap fun e => match e with
    | Event.timing name _ _ => some name
    | _ => none

/-- Results of the `memcmp` calls, in order. -/
def memcmp_results (log : List Event) : List Int :=
  log.filterMap fun e => match e with
    | Event.memcmp res => some res
    | _ => none

/-- Addresses of the vector loads, in order. -/
def load_addrs (log : List Event) : List Nat :=
  log.filterMap fun e => match e with
    | Event.load a => some a
    | _ => none

/-- Addresses of the vector stores, in order. -/
def store_addrs (log : List Event) : List Nat :=
  log.filterMap fun e => match e with
    | Event.store a => some a
    | _ => none

/-- The events that access the buffers: vector loads and stores and calls of
`memcpy`. -/
def is_access : Event → Bool
  | Event.load _ => true
  | Event.store _ => true
  | Event.memcpy _ _ _ => true
  | _ => false

/-- An event of `copy_with_sse(dst, src, n)` that stays inside the buffers: a
16-byte load inside the `n` bytes at `src`, or a 16-byte store inside the `n`
bytes at `dst`, at an address congruent to the base modulo 16. -/
def within_sse (dst src n : Nat) : Event → Prop
  | Event.load a => src ≤ a ∧ a + 16 ≤ src + n ∧ a % 16 = src % 16
  | Event.store a => dst ≤ a ∧ a + 16 ≤ dst + n ∧ a % 16 = dst % 16
  | _ => False

/-- Number of lines `Compare ok` in a log. -/
def compare_ok_count (log : List Event) : Nat := log.count (Event.print "Compare ok")

/-- Number of lines `Error in compare` in a log. -/
def compare_error_count (log : List Event) : Nat := log.count (Event.print "Error in compare")

/-- Two allocations that succeeded and are live at the same time: both pointers
are non-null and aligned as `malloc` aligns them (for every fundamental type,
16 bytes on x86-64), and the two blocks of `size` bytes do not overlap. -/
def valid_pair (a1 a2 : Alloc) : Prop :=
  a1.ptr ≠ 0 ∧ a2.ptr ≠ 0 ∧ a1.ptr % 16 = 0 ∧ a2.ptr % 16 = 0 ∧
    (a1.ptr + size ≤ a2.ptr ∨ a2.ptr + size ≤ a1.ptr)

/-- From `w` to `w1` the benchmark runs named `names` took place, in that
order, and each passed its check: their timing lines were printed, every
`memcmp` returned `0`, `Compare ok` was printed once per run and
`Error in compare` was not printed. -/
def passed_runs (names : List String) (w w1 : World) : Prop :=
  timing_names w1.log = timing_names w.log ++ names ∧
  memcmp_results w1.log = memcmp_results w.log ++ List.replicate names.length 0 ∧
  compare_ok_count w1.log = compare_ok_count w.log + names.length ∧
  compare_error_count w1.log = compare_error_count w.log

/-- A sample environment: every run gets its destination at address 16 and its
source right after it, takes one second, and its workers take effect in
reverse order of creation. -/
def sample_env : Env where
  alloc := fun k => if k % 2 = 0 then ⟨16, fun x => x % 251⟩ else ⟨16 + size, fun x => x % 7⟩
  took := fun _ => 1000000
  order := fun _ => [7, 6, 5, 4, 3, 2, 1, 0]

/-! ## Values of the constants -/

theorem size_int_part_eq : size_int_part = some 1073741824 := by decide

theorem size_eq : size = 12884901888 := by decide

theorem stride_eq : stride = 128 := by decide

theorem per_worker_size_eq : per_worker_size = 1610612736 := by
  unfold per_worker_size; rw [size_eq]; decide

theorem per_call_size_eq : per_call_size = 12288 := by
  unfold per_call_size; rw [size_eq]; decide

theorem worker_offset_eq {i : Nat} (h : i < workers_number) :
    u64_mul i per_worker_size = i * 1610612736 := by
  rw [per_worker_size_eq]
  unfold workers_number at h
  unfold u64_mul
  omega

theorem workers_get (function : World → Nat → Nat → Nat → Outcome)
    (dst src pws i : Nat) (h : i < workers_number) :
    (workers function dst src pws).get? i =
      some (fun w => function w (dst + u64_mul i pws) (src + u64_mul i pws) pws) := by
  simp [workers, List.getElem?_range h]

theorem workers_get_none (function : World → Nat → Nat → Nat → Outcome)
    (dst src pws i : Nat) (h : workers_number ≤ i) :
    (workers function dst src pws).get? i = none := by
  simp [workers, h]

theorem u64_mul_small {a b : Nat} (h : a * b < 2 ^ 64) : u64_mul a b = a * b :=
  Nat.mod_eq_of_lt h

theorem u64_sub_stride {n : Nat} (h0 : n % 128 = 0) (hn : n ≠ 0) (hlt : n < 2 ^ 64) :
    u64_sub n stride = n - 128 := by
  rw [stride_eq]
  unfold u64_sub
  omega

theorem copy_bytes_zero (m : Mem) (dst src : Nat) : copy_bytes m dst src 0 = m := by
  funext x
  simp only [copy_bytes]
  split_ifs with h
  · omega
  · rfl

theorem copy_bytes_at_dst (m : Mem) (dst src n k : Nat) (hk : k < n) :
    copy_bytes m dst src n (dst + k) = m (src + k) := by
  simp only [copy_bytes]
  rw [if_pos (by omega)]
  exact congrArg m (by omega)

theorem copy_bytes_at_src (m : Mem) (dst src n k : Nat) (hk : k < n)
    (hd : dst + n ≤ src ∨ src + n ≤ dst) :
    copy_bytes m dst src n (src + k) = m (src + k) := by
  simp only [copy_bytes]
  rw [if_neg (by omega)]

/-- Copying a block and then the block that follows it is copying both at once,
when the destination does not reach into the source. -/
theorem copy_bytes_append (m : Mem) (dst src a b : Nat)
    (hd : dst + (a + b) ≤ src ∨ src + (a + b) ≤ dst) :
    copy_bytes (copy_bytes m dst src a) (dst + a) (src + a) b = copy_bytes m dst src (a + b) := by
  funext x
  simp only [copy_bytes]
  split_ifs <;> first | omega | (congr 1; omega)

theorem mm_load_ps_aligned (w : World) (p : Nat) (h : p % 16 = 0) :
    _mm_load_ps w p = some (fun i => w.mem (p + i), ⟨w.mem, w.log ++ [Event.load p]⟩) := by
  simp [_mm_load_ps, h, World.emit]

theorem mm_load_ps_misaligned (w : World) (p : Nat) (h : p % 16 ≠ 0) :
    _mm_load_ps w p = none := by
  simp [_mm_load_ps, h]

theorem mm_store_ps_aligned (w : World) (p : Nat) (v : M128) (h : p % 16 = 0) :
    _mm_store_ps w p v =
      some ⟨fun x => if p ≤ x ∧ x < p + 16 then v (x - p) else w.mem x,
        w.log ++ [Event.store p]⟩ := by
  simp [_mm_store_ps, h]

theorem mm_store_ps_misaligned (w : World) (p : Nat) (v : M128) (h : p % 16 ≠ 0) :
    _mm_store_ps w p v = none := by
  simp [_mm_store_ps, h]

theorem copy_with_sse_loads_aligned (w : World) (src : Nat) (hs : src % 16 = 0) :
    copy_with_sse_loads w src =
      some (⟨fun i => w.mem (src + i), fun i => w.mem (src + 16 + i),
          fun i => w.mem (src + 32 + i), fun i => w.mem (src + 48 + i),
          fun i => w.mem (src + 64 + i), fun i => w.mem (src + 80 + i),
          fun i => w.mem (src + 96 + i), fun i => w.mem (src + 112 + i)⟩,
        ⟨w.mem, w.log ++ [Event.load src, Event.load (src + 16), Event.load (src + 32),
          Event.load (src + 48), Event.load (src + 64), Event.load (src + 80),
          Event.load (src + 96), Event.load (src + 112)]⟩) := by
  simp only [copy_with_sse_loads, sizeof_m128, Nat.zero_mul, Nat.add_zero, Nat.one_mul,
    Nat.reduceMul]
  rw [mm_load_ps_aligned _ _ hs]
  simp only [Option.pure_def, Option.bind_eq_bind, Option.some_bind]
  rw [mm_load_ps_aligned _ _ (by omega : (src + 16) % 16 = 0)]
  simp only [Option.some_bind]
  rw [mm_load_ps_aligned _ _ (by omega : (src + 32) % 16 = 0)]
  simp only [Option.some_bind]
  rw [mm_load_ps_aligned _ _ (by omega : (src + 48) % 16 = 0)]
  simp only [Option.some_bind]
  rw [mm_load_ps_aligned _ _ (by omega : (src + 64) % 16 = 0)]
  simp only [Option.some_bind]
  rw [mm_load_ps_aligned _ _ (by omega : (src + 80) % 16 = 0)]
  simp only [Option.some_bind]
  rw [mm_load_ps_aligned _ _ (by omega : (src + 96) % 16 = 0)]
  simp only [Option.some_bind]
  rw [mm_load_ps_aligned _ _ (by omega : (src + 112) % 16 = 0)]
  simp

theorem copy_with_sse_loads_misaligned (w : World) (src : Nat) (hs : src % 16 ≠ 0) :
    copy_with_sse_loads w src = none := by
  simp only [copy_with_sse_loads, sizeof_m128, Nat.zero_mul, Nat.add_zero]
  rw [mm_load_ps_misaligned _ _ hs]
  rfl

theorem copy_with_sse_stores_aligned (w : World) (dst : Nat) (r : Regs) (hd : dst % 16 = 0) :
    ∃ w1, copy_with_sse_stores w dst r = some w1 ∧
      w1.mem = (fun x =>
        if dst ≤ x ∧ x < dst + 16 then r.a (x - dst)
        else if dst + 16 ≤ x ∧ x < dst + 32 then r.b (x - (dst + 16))
        else if dst + 32 ≤ x ∧ x < dst + 48 then r.c (x - (dst + 32))
        else if dst + 48 ≤ x ∧ x < dst + 64 then r.d (x - (dst + 48))
        else if dst + 64 ≤ x ∧ x < dst + 80 then r.e (x - (dst + 64))
        else if dst + 80 ≤ x ∧ x < dst + 96 then r.f (x - (dst + 80))
        else if dst + 96 ≤ x ∧ x < dst + 112 then r.g (x - (dst + 96))
        else if dst + 112 ≤ x ∧ x < dst + 128 then r.h (x - (dst + 112))
        else w.mem x) ∧
      w1.log = w.log ++ [Event.store dst, Event.store (dst + 16), Event.store (dst + 32),
        Event.store (dst + 48), Event.store (dst + 64), Event.store (dst + 80),
        Event.store (dst + 96), Event.store (dst + 112)] := by
  simp only [copy_with_sse_stores, sizeof_m128, Nat.zero_mul, Nat.add_zero, Nat.one_mul,
    Nat.reduceMul]
  rw [mm_store_ps_aligned _ _ _ hd]
  simp only [Option.pure_def, Option.bind_eq_bind, Option.some_bind]
  rw [mm_store_ps_aligned _ _ _ (by omega : (dst + 16) % 16 = 0)]
  simp only [Option.some_bind]
  rw [mm_store_ps_aligned _ _ _ (by omega : (dst + 32) % 16 = 0)]
  simp only [Option.some_bind]
  rw [mm_store_ps_aligned _ _ _ (by omega : (dst + 48) % 16 = 0)]
  simp only [Option.some_bind]
  rw [mm_store_ps_aligned _ _ _ (by omega : (dst + 64) % 16 = 0)]
  simp only [Option.some_bind]
  rw [mm_store_ps_aligned _ _ _ (by omega : (dst + 80) % 16 = 0)]
  simp only [Option.some_bind]
  rw [mm_store_ps_aligned _ _ _ (by omega : (dst + 96) % 16 = 0)]
  simp only [Option.some_bind]
  rw [mm_store_ps_aligned _ _ _ (by omega : (dst + 112) % 16 = 0)]
  refine ⟨_, rfl, ?_, by simp⟩
  funext x
  simp only
  split_ifs <;> first | rfl | omega

theorem copy_with_sse_stores_misaligned (w : World) (dst : Nat) (r : Regs)
    (hd : dst % 16 ≠ 0) : copy_with_sse_stores w dst r = none := by
  simp only [copy_with_sse_stores, sizeof_m128, Nat.zero_mul, Nat.add_zero]
  rw [mm_store_ps_misaligned _ _ _ hd]
  rfl

/-- With both pointers 16-byte aligned, one iteration copies 128 bytes with
eight loads followed by eight stores. -/
theorem copy_with_sse_body_aligned (w : World) (dst src : Nat) (hd : dst % 16 = 0)
    (hs : src % 16 = 0) :
    ∃ w1, copy_with_sse_body w dst src = some w1 ∧
      w1.mem = copy_bytes w.mem dst src 128 ∧
      w1.log = w.log ++
        [Event.load src, Event.load (src + 16), Event.load (src + 32), Event.load (src + 48),
         Event.load (src + 64), Event.load (src + 80), Event.load (src + 96),
         Event.load (src + 112),
         Event.store dst, Event.store (dst + 16), Event.store (dst + 32),
         Event.store (dst + 48), Event.store (dst + 64), Event.store (dst + 80),
         Event.store (dst + 96), Event.store (dst + 112)] := by
  obtain ⟨w1, hrun, hmem, hlog⟩ := copy_with_sse_stores_aligned
    ⟨w.mem, w.log ++ [Event.load src, Event.load (src + 16), Event.load (src + 32),
      Event.load (src + 48), Event.load (src + 64), Event.load (src + 80),
      Event.load (src + 96), Event.load (src + 112)]⟩ dst
    ⟨fun i => w.mem (src + i), fun i => w.mem (src + 16 + i),
      fun i => w.mem (src + 32 + i), fun i => w.mem (src + 48 + i),
      fun i => w.mem (src + 64 + i), fun i => w.mem (src + 80 + i),
      fun i => w.mem (src + 96 + i), fun i => w.mem (src + 112 + i)⟩ hd
  refine ⟨w1, ?_, ?_, ?_⟩
  · simp only [copy_with_sse_body, copy_with_sse_loads_aligned w src hs, Option.bind_eq_bind,
      Option.some_bind]
    exact hrun
  · rw [hmem]
    funext x
    simp only [copy_bytes]
    split_ifs <;> first | omega | exact congrArg w.mem (by omega)
  · rw [hlog]
    simp

/-- With a pointer that is not 16-byte aligned, the iteration faults. -/
theorem copy_with_sse_body_misaligned (w : World) (dst src : Nat)
    (h : dst % 16 ≠ 0 ∨ src % 16 ≠ 0) : copy_with_sse_body w dst src = none := by
  by_cases hs : src % 16 = 0
  · have hd : dst % 16 ≠ 0 := by
      rcases h with h | h
      · exact h
      · exact absurd hs h
    simp only [copy_with_sse_body, copy_with_sse_loads_aligned w src hs, Option.bind_eq_bind,
      Option.some_bind]
    exact copy_with_sse_stores_misaligned _ _ _ hd
  · simp only [copy_with_sse_body, copy_with_sse_loads_misaligned w src hs,
      Option.bind_eq_bind, Option.none_bind]

/-! ## The loop of `copy_with_sse` -/

theorem copy_with_sse_zero (fuel : Nat) (w : World) (dst src : Nat) :
    copy_with_sse fuel w dst src 0 = Outcome.done w := by
  unfold copy_with_sse
  exact if_pos rfl

theorem copy_with_sse_no_fuel (w : World) (dst src n : Nat) (hne : n ≠ 0) :
    copy_with_sse 0 w dst src n = Outcome.hang := by
  rw [copy_with_sse, if_neg hne]

theorem copy_with_sse_step (k : Nat) (w w1 : World) (dst src n : Nat) (hne : n ≠ 0)
    (hb : copy_with_sse_body w dst src = some w1) :
    copy_with_sse (k + 1) w dst src n =
      copy_with_sse k w1 (dst + 128) (src + 128) (u64_sub n stride) := by
  rw [copy_with_sse, if_neg hne]
  simp only [hb]
  rw [stride_eq]

theorem copy_with_sse_fault (k : Nat) (w : World) (dst src n : Nat) (hne : n ≠ 0)
    (hb : copy_with_sse_body w dst src = none) :
    copy_with_sse (k + 1) w dst src n = Outcome.fault := by
  rw [copy_with_sse, if_neg hne]
  simp only [hb]

theorem within_sse_mono {dst src n : Nat} {e : Event}
    (h : within_sse (dst + 128) (src + 128) n e) : within_sse dst src (128 + n) e := by
  cases e <;> simp only [within_sse] at h ⊢ <;> omega

theorem within_sse_access {dst src n : Nat} {e : Event} (h : within_sse dst src n e) :
    is_access e = true := by
  cases e <;> simp [within_sse, is_access] at h ⊢

/-- With aligned pointers and enough iterations allowed, `copy_with_sse` on a
multiple of 128 bytes returns; it has done 16 vector accesses per block, all
inside the buffers; and when the buffers do not overlap its effect on memory
is that of `copy_bytes`. -/
theorem copy_with_sse_blocks (q : Nat) : ∀ (fuel : Nat) (w : World) (dst src : Nat),
    q ≤ fuel → 128 * q < 2 ^ 64 → dst % 16 = 0 → src % 16 = 0 →
    ∃ w1, copy_with_sse fuel w dst src (128 * q) = Outcome.done w1 ∧
      ((dst + 128 * q ≤ src ∨ src + 128 * q ≤ dst) →
        w1.mem = copy_bytes w.mem dst src (128 * q)) ∧
      ∃ tr, w1.log = w.log ++ tr ∧ tr.length = 16 * q ∧
        ∀ e ∈ tr, within_sse dst src (128 * q) e := by
  induction q with
  | zero =>
    intro fuel w dst src _ _ _ _
    exact ⟨w, copy_with_sse_zero fuel w dst src,
      fun _ => (copy_bytes_zero w.mem dst src).symm, [], by simp, rfl, by simp⟩
  | succ q ih =>
    intro fuel w dst src hf hlt hda hsa
    obtain ⟨k, rfl⟩ : ∃ k, fuel = k + 1 := ⟨fuel - 1, by omega⟩
    have hne : 128 * (q + 1) ≠ 0 := by omega
    have hsub : u64_sub (128 * (q + 1)) stride = 128 * q := by
      rw [u64_sub_stride (by omega) hne hlt]; omega
    have hq : 128 * (q + 1) = 128 + 128 * q := by omega
    obtain ⟨wb, hb, hbmem, hblog⟩ := copy_with_sse_body_aligned w dst src hda hsa
    obtain ⟨w1, hrun, hmem, tr, hlog, hlen, htr⟩ :=
      ih k wb (dst + 128) (src + 128) (by omega) (by omega) (by omega) (by omega)
    refine ⟨w1, ?_, ?_, ?_⟩
    · rw [copy_with_sse_step k w wb dst src _ hne hb, hsub]
      exact hrun
    · intro hd
      rw [hmem (by omega), hbmem, copy_bytes_append _ _ _ _ _ (by omega), hq]
    · rw [hblog, List.append_assoc] at hlog
      refine ⟨_, hlog, by simp [hlen]; omega, ?_⟩
      intro e he
      rw [hq]
      rcases List.mem_append.mp he with h | h
      · simp only [List.mem_cons, List.mem_singleton, List.not_mem_nil, or_false] at h
        rcases h with h | h | h | h | h | h | h | h | h | h | h | h | h | h | h | h <;>
          subst h <;> simp only [within_sse] <;> refine ⟨by omega, by omega, ?_⟩ <;>
          first | exact True.intro | omega
      · exact within_sse_mono (htr e h)

/-- With a pointer that is not 16-byte aligned, a call on a non-zero size that
is allowed at least one iteration faults in its first iteration. -/
theorem copy_with_sse_misaligned (k : Nat) (w : World) (dst src n : Nat) (hne : n ≠ 0)
    (h : dst % 16 ≠ 0 ∨ src % 16 ≠ 0) :
    copy_with_sse (k + 1) w dst src n = Outcome.fault :=
  copy_with_sse_fault k w dst src n hne (copy_with_sse_body_misaligned w dst src h)

theorem copy_with_sse_spec (fuel n dst src : Nat) (w : World) (hmul : n % 128 = 0)
    (hn : n < 2 ^ 64) (hfuel : n / 128 ≤ fuel) (hda : dst % 16 = 0) (hsa : src % 16 = 0) :
    ∃ w1, copy_with_sse fuel w dst src n = Outcome.done w1 ∧
      ((dst + n ≤ src ∨ src + n ≤ dst) → w1.mem = copy_bytes w.mem dst src n) ∧
      ∃ tr, w1.log = w.log ++ tr ∧ tr.length = 16 * (n / 128) ∧
        ∀ e ∈ tr, within_sse dst src n e := by
  obtain ⟨q, rfl⟩ : ∃ q, n = 128 * q := ⟨n / 128, by omega⟩
  have h := copy_with_sse_blocks q fuel w dst src (by omega) hn hda hsa
  rwa [show 128 * q / 128 = q by omega]

/-! ## `memcmp`, the chunked copy and the worker threads -/

theorem memcmp_bytes_eq_zero_iff (m : Mem) : ∀ (n p q : Nat),
    memcmp_bytes m p q n = 0 ↔ ∀ k, k < n → m (p + k) = m (q + k) := by
  intro n
  induction n with
  | zero => intro p q; simp [memcmp_bytes]
  | succ n ih =>
    intro p q
    rw [memcmp_bytes]
    split_ifs with h
    · rw [ih]
      constructor
      · intro hk k hlt
        rcases Nat.eq_zero_or_pos k with rfl | hpos
        · exact h
        · have := hk (k - 1) (by omega)
          rwa [show p + 1 + (k - 1) = p + k by omega,
            show q + 1 + (k - 1) = q + k by omega] at this
      · intro hk k hlt
        have := hk (k + 1) (by omega)
        rwa [show p + (k + 1) = p + 1 + k by omega,
          show q + (k + 1) = q + 1 + k by omega] at this
    · constructor
      · intro h0
        exact absurd (by omega : m p = m q) h
      · intro hk
        exact absurd (hk 0 (by omega)) h

theorem memcmp_copy_bytes (m : Mem) (dst src n : Nat) (hd : dst + n ≤ src ∨ src + n ≤ dst) :
    memcmp_bytes (copy_bytes m dst src n) dst src n = 0 := by
  rw [memcmp_bytes_eq_zero_iff]
  intro k hk
  rw [copy_bytes_at_dst _ _ _ _ _ hk, copy_bytes_at_src _ _ _ _ _ hk hd]

theorem memcpy_loop_succ (n c dst src : Nat) (w : World) :
    memcpy_loop (n + 1) c dst src w =
      (memcpy_loop n c dst src w).bind
        (fun w => memcpy w (dst + u64_mul n c) (src + u64_mul n c) c) := by
  simp only [memcpy_loop, List.range_succ, List.foldl_append, List.foldl_cons, List.foldl_nil]

/-- The loop of `n` calls of `memcpy` on consecutive chunks of `c` bytes has the
effect on memory of one copy of `n * c` bytes. -/
theorem memcpy_loop_spec (c dst src : Nat) : ∀ (n : Nat) (w : World),
    n * c < 2 ^ 64 → (dst + n * c ≤ src ∨ src + n * c ≤ dst) →
    ∃ w1, memcpy_loop n c dst src w = Outcome.done w1 ∧
      w1.mem = copy_bytes w.mem dst src (n * c) ∧
      ∃ tr, w1.log = w.log ++ tr ∧ tr.length = n ∧
        ∀ e ∈ tr, ∃ d s, e = Event.memcpy d s c := by
  intro n
  induction n with
  | zero =>
    intro w _ _
    refine ⟨w, rfl, ?_, [], by simp, rfl, by simp⟩
    rw [Nat.zero_mul, copy_bytes_zero]
  | succ n ih =>
    intro w hlt hd
    have hs : (n + 1) * c = n * c + c := Nat.succ_mul n c
    rw [hs] at hlt hd
    obtain ⟨w1, hrun, hmem, tr, hlog, hlen, htr⟩ := ih w (by omega) (by omega)
    have hoff : u64_mul n c = n * c := u64_mul_small (by omega)
    refine ⟨_, by rw [memcpy_loop_succ, hrun]; rfl, ?_, tr ++ [Event.memcpy (dst + n * c)
      (src + n * c) c], ?_, by simp [hlen], ?_⟩
    · show copy_bytes w1.mem (dst + u64_mul n c) (src + u64_mul n c) c = _
      rw [hoff, hmem, copy_bytes_append _ _ _ _ _ hd, hs]
    · show w1.log ++ [Event.memcpy (dst + u64_mul n c) (src + u64_mul n c) c] = _
      rw [hoff, hlog, List.append_assoc]
    · intro e he
      rcases List.mem_append.mp he with h | h
      · exact htr e h
      · exact ⟨_, _, List.mem_singleton.mp h⟩

theorem run_workers_cons (ws : List (World → Outcome)) (i : Nat) (rest : List Nat)
    (w : World) :
    run_workers ws (i :: rest) w =
      ((match ws.get? i with
        | some worker => worker w
        | none => Outcome.done w).bind fun w1 => run_workers ws rest w1) := rfl

/-- What the worker threads do, in whatever order they run, when each call of
`function` on a slice copies that slice: the slices of the workers that ran
hold the source bytes, and nothing outside the destination buffer changed. -/
theorem run_workers_spec (function : World → Nat → Nat → Nat → Outcome)
    (dst src : Nat) (Q : Event → Prop)
    (hd : dst + size ≤ src ∨ src + size ≤ dst)
    (hF : ∀ i, i < workers_number → ∀ w : World, ∃ w1,
      function w (dst + u64_mul i per_worker_size) (src + u64_mul i per_worker_size)
        per_worker_size = Outcome.done w1 ∧
      w1.mem = copy_bytes w.mem (dst + i * 1610612736) (src + i * 1610612736) 1610612736 ∧
      ∃ tr, w1.log = w.log ++ tr ∧ ∀ e ∈ tr, Q e)
    (w0 : World) : ∀ (order : List Nat) (w : World) (done : List Nat),
    (∀ x, ¬ (dst ≤ x ∧ x < dst + size) → w.mem x = w0.mem x) →
    (∀ i, i ∈ done → i < workers_number → ∀ k, k < 1610612736 →
      w.mem (dst + i * 1610612736 + k) = w0.mem (src + i * 1610612736 + k)) →
    ∃ w1, run_workers (workers function dst src per_worker_size) order w = Outcome.done w1 ∧
      (∀ x, ¬ (dst ≤ x ∧ x < dst + size) → w1.mem x = w0.mem x) ∧
      (∀ i, i ∈ done ∨ i ∈ order → i < workers_number → ∀ k, k < 1610612736 →
        w1.mem (dst + i * 1610612736 + k) = w0.mem (src + i * 1610612736 + k)) ∧
      ∃ tr, w1.log = w.log ++ tr ∧ ∀ e ∈ tr, Q e := by
  rw [size_eq] at hd ⊢
  intro order
  induction order with
  | nil =>
    intro w done hout hdone
    refine ⟨w, rfl, hout, ?_, [], by simp, by simp⟩
    intro i hi
    rcases hi with hi | hi
    · exact hdone i hi
    · simp at hi
  | cons i rest ih =>
    intro w done hout hdone
    rw [run_workers_cons]
    by_cases hi : i < workers_number
    · rw [workers_get _ _ _ _ _ hi]
      obtain ⟨w1, hrun, hmem, tr1, hlog1, htr1⟩ := hF i hi w
      have hi8 : i < 8 := hi
      have hout1 : ∀ x, ¬ (dst ≤ x ∧ x < dst + 12884901888) → w1.mem x = w0.mem x := by
        intro x hx
        rw [hmem]
        simp only [copy_bytes]
        rw [if_neg (by omega)]
        exact hout x hx
      have hdone1 : ∀ j, j ∈ i :: done → j < workers_number → ∀ k, k < 1610612736 →
          w1.mem (dst + j * 1610612736 + k) = w0.mem (src + j * 1610612736 + k) := by
        intro j hj hj8 k hk
        have hj8 : j < 8 := hj8
        rw [hmem]
        simp only [copy_bytes]
        split_ifs with hin
        · rw [hout _ (by omega)]
          exact congrArg w0.mem (by omega)
        · rcases List.mem_cons.mp hj with rfl | hj
          · omega
          · exact hdone j hj hj8 k hk
      obtain ⟨w2, hrun2, hout2, hdone2, tr2, hlog2, htr2⟩ := ih w1 (i :: done) hout1 hdone1
      refine ⟨w2, ?_, hout2, ?_, tr1 ++ tr2, by rw [hlog2, hlog1, List.append_assoc], ?_⟩
      · show (function w _ _ _).bind _ = _
        rw [hrun]
        exact hrun2
      · intro j hj
        refine hdone2 j ?_
        rcases hj with hj | hj
        · exact Or.inl (List.mem_cons_of_mem _ hj)
        · rcases List.mem_cons.mp hj with rfl | hj
          · exact Or.inl (List.mem_cons_self _ _)
          · exact Or.inr hj
      · intro e he
        rcases List.mem_append.mp he with h | h
        · exact htr1 e h
        · exact htr2 e h
    · rw [workers_get_none _ _ _ _ _ (by omega)]
      obtain ⟨w2, hrun2, hout2, hdone2, tr2, hlog2, htr2⟩ := ih w done hout hdone
      refine ⟨w2, hrun2, hout2, ?_, tr2, hlog2, htr2⟩
      intro j hj hj8
      refine hdone2 j ?_ hj8
      rcases hj with hj | hj
      · exact Or.inl hj
      · rcases List.mem_cons.mp hj with rfl | hj
        · exact absurd hj8 hi
        · exact Or.inr hj

/-- When every worker runs (the order is a permutation of the workers), the
effect on memory is that of one copy of the whole buffer. -/
theorem run_workers_perm (function : World → Nat → Nat → Nat → Outcome)
    (dst src : Nat) (Q : Event → Prop)
    (hd : dst + size ≤ src ∨ src + size ≤ dst)
    (hF : ∀ i, i < workers_number → ∀ w : World, ∃ w1,
      function w (dst + u64_mul i per_worker_size) (src + u64_mul i per_worker_size)
        per_worker_size = Outcome.done w1 ∧
      w1.mem = copy_bytes w.mem (dst + i * 1610612736) (src + i * 1610612736) 1610612736 ∧
      ∃ tr, w1.log = w.log ++ tr ∧ ∀ e ∈ tr, Q e)
    (order : List Nat) (hperm : order.Perm (List.range workers_number)) (w : World) :
    ∃ w1, run_workers (workers function dst src per_worker_size) order w = Outcome.done w1 ∧
      w1.mem = copy_bytes w.mem dst src size ∧
      ∃ tr, w1.log = w.log ++ tr ∧ ∀ e ∈ tr, Q e := by
  obtain ⟨w1, hrun, hout, hdone, htr⟩ :=
    run_workers_spec function dst src Q hd hF w order w [] (fun _ _ => rfl) (by simp)
  refine ⟨w1, hrun, ?_, htr⟩
  rw [size_eq] at hout hd ⊢
  funext x
  simp only [copy_bytes]
  split_ifs with hin
  · have hi : (x - dst) / 1610612736 < workers_number := by
      show _ < 8
      omega
    have := hdone ((x - dst) / 1610612736)
      (Or.inr (hperm.mem_iff.mpr (List.mem_range.mpr hi))) hi
      ((x - dst) % 1610612736) (Nat.mod_lt _ (by omega))
    rw [show dst + (x - dst) / 1610612736 * 1610612736 + (x - dst) % 1610612736 = x by omega,
      show src + (x - dst) / 1610612736 * 1610612736 + (x - dst) % 1610612736 =
        src + (x - dst) by omega] at this
    exact this
  · exact hout x hin

theorem memcpy_worker (dst src : Nat) (i : Nat) (hi : i < workers_number) (w : World) :
    ∃ w1, memcpy w (dst + u64_mul i per_worker_size) (src + u64_mul i per_worker_size)
        per_worker_size = Outcome.done w1 ∧
      w1.mem = copy_bytes w.mem (dst + i * 1610612736) (src + i * 1610612736) 1610612736 ∧
      ∃ tr, w1.log = w.log ++ tr ∧ ∀ e ∈ tr, is_access e = true := by
  rw [worker_offset_eq hi, per_worker_size_eq]
  exact ⟨_, rfl, rfl, [_], rfl, by simp [is_access]⟩

theorem copy_with_sse_worker (fuel : Nat) (hfuel : per_worker_size / 128 ≤ fuel)
    (dst src : Nat) (hd : dst + size ≤ src ∨ src + size ≤ dst)
    (hda : dst % 16 = 0) (hsa : src % 16 = 0)
    (i : Nat) (hi : i < workers_number) (w : World) :
    ∃ w1, copy_with_sse fuel w (dst + u64_mul i per_worker_size)
        (src + u64_mul i per_worker_size) per_worker_size = Outcome.done w1 ∧
      w1.mem = copy_bytes w.mem (dst + i * 1610612736) (src + i * 1610612736) 1610612736 ∧
      ∃ tr, w1.log = w.log ++ tr ∧
        ∀ e ∈ tr, within_sse (dst + i * 1610612736) (src + i * 1610612736) 1610612736 e := by
  rw [worker_offset_eq hi]
  rw [per_worker_size_eq] at hfuel ⊢
  rw [size_eq] at hd
  have hi8 : i < 8 := hi
  obtain ⟨w1, hrun, hmem, tr, hlog, _, htr⟩ := copy_with_sse_spec fuel 1610612736
    (dst + i * 1610612736) (src + i * 1610612736) w (by decide) (by decide) hfuel
    (by omega) (by omega)
  exact ⟨w1, hrun, hmem (by omega), tr, hlog, htr⟩

/-! ## The harness -/

theorem init_buffers_ok (a1 a2 : Alloc) (w : World) (h1 : a1.ptr ≠ 0) (h2 : a2.ptr ≠ 0) :
    init_buffers a1 a2 w = Result.ok (a1.ptr, a2.ptr)
      ⟨(malloc (malloc w size a1).2 size a2).2.mem,
        w.log ++ [Event.malloc size a1.ptr, Event.malloc size a2.ptr]⟩ := by
  simp [init_buffers, malloc, h1, h2]

theorem compare_and_free_zero (w : World) (dst src : Nat)
    (h : memcmp_bytes w.mem dst src size = 0) :
    compare_and_free w dst src = Result.ok ()
      ⟨w.mem, w.log ++ [Event.memcmp 0, Event.print "Compare ok", Event.free dst,
        Event.free src]⟩ := by
  simp [compare_and_free, memcmp, h, cout, free_buffers, free, World.emit]

/-- The common shape of the five benchmark functions, when both allocations
succeed and the copy step copies the whole buffer: the function returns, and
its log is the two `malloc`s, the accesses of the copy, the timing line, a
`memcmp` with result `0`, `Compare ok` and the two `free`s. -/
theorem bench_run_ok (copy : World → Nat → Nat → Outcome) (name : String)
    (Q : Event → Prop) (a1 a2 : Alloc) (took : Int) (w : World) (hv : valid_pair a1 a2)
    (hcopy : ∀ w : World, ∃ w1, copy w a1.ptr a2.ptr = Outcome.done w1 ∧
      w1.mem = copy_bytes w.mem a1.ptr a2.ptr size ∧
      ∃ tr, w1.log = w.log ++ tr ∧ ∀ e ∈ tr, Q e) :
    ∃ w1 tr,
      ((init_buffers a1 a2 w).bind fun p w =>
        after_copy (copy w p.1 p.2) fun w =>
          compare_and_free (timed_scope name took w) p.1 p.2) = Result.ok () w1 ∧
      (∀ e ∈ tr, Q e) ∧
      w1.log = w.log ++ ([Event.malloc size a1.ptr, Event.malloc size a2.ptr] ++ tr ++
        [Event.timing name (ms_figure took) (bw_figure took), Event.memcmp 0,
          Event.print "Compare ok", Event.free a1.ptr, Event.free a2.ptr]) := by
  obtain ⟨h1, h2, _, _, hd⟩ := hv
  obtain ⟨w1, hrun, hmem, tr, hlog, htr⟩ := hcopy
    ⟨(malloc (malloc w size a1).2 size a2).2.mem,
      w.log ++ [Event.malloc size a1.ptr, Event.malloc size a2.ptr]⟩
  have hz : memcmp_bytes (timed_scope name took w1).mem a1.ptr a2.ptr size = 0 := by
    show memcmp_bytes w1.mem a1.ptr a2.ptr size = 0
    rw [hmem]
    exact memcmp_copy_bytes _ _ _ _ hd
  refine ⟨⟨w1.mem, w1.log ++ [Event.timing name (ms_figure took) (bw_figure took),
    Event.memcmp 0, Event.print "Compare ok", Event.free a1.ptr, Event.free a2.ptr]⟩,
    tr, ?_, htr, ?_⟩
  · rw [init_buffers_ok a1 a2 w h1 h2]
    simp only [Result.bind, after_copy, hrun]
    rw [compare_and_free_zero _ _ _ hz]
    simp [timed_scope, World.emit]
  · simp [hlog]

theorem timing_names_access {tr : List Event} (h : ∀ e ∈ tr, is_access e = true) :
    timing_names tr = [] := by
  simp only [timing_names, List.filterMap_eq_nil_iff]
  intro e he
  have := h e he
  cases e <;> simp [is_access] at this ⊢

theorem memcmp_results_access {tr : List Event} (h : ∀ e ∈ tr, is_access e = true) :
    memcmp_results tr = [] := by
  simp only [memcmp_results, List.filterMap_eq_nil_iff]
  intro e he
  have := h e he
  cases e <;> simp [is_access] at this ⊢

theorem count_print_access {tr : List Event} (h : ∀ e ∈ tr, is_access e = true)
    (line : String) : tr.count (Event.print line) = 0 := by
  rw [List.count_eq_zero]
  intro hmem
  have := h _ hmem
  simp [is_access] at this

/-- A run with the log of `bench_run_ok` is one passed run. -/
theorem passed_runs_of_log (name : String) (w w1 : World) (tr : List Event)
    (ms : ℚ) (bw : Option ℚ) (p1 p2 : Nat)
    (htr : ∀ e ∈ tr, is_access e = true)
    (hlog : w1.log = w.log ++ ([Event.malloc size p1, Event.malloc size p2] ++ tr ++
        [Event.timing name ms bw, Event.memcmp 0,
          Event.print "Compare ok", Event.free p1, Event.free p2])) :
    passed_runs [name] w w1 := by
  have h1 := timing_names_access htr
  have h2 := memcmp_results_access htr
  have h3 := count_print_access htr "Compare ok"
  have h4 := count_print_access htr "Error in compare"
  unfold timing_names at h1
  unfold memcmp_results at h2
  refine ⟨?_, ?_, ?_, ?_⟩
  · simp [hlog, timing_names, List.filterMap_append, h1]
  · simp [hlog, memcmp_results, List.filterMap_append, h2]
  · simp [hlog, compare_ok_count, List.count_append, h3, List.count_cons]
  · simp [hlog, compare_error_count, List.count_append, h4, List.count_cons]

theorem single_thread_sse_ok (fuel : Nat) (hfuel : size / 128 ≤ fuel) (a1 a2 : Alloc)
    (took : Int) (w : World) (hv : valid_pair a1 a2) :
    ∃ w1 tr, single_thread_sse fuel a1 a2 took w = Result.ok () w1 ∧
      (∀ e ∈ tr, within_sse a1.ptr a2.ptr size e) ∧
      w1.log = w.log ++ ([Event.malloc size a1.ptr, Event.malloc size a2.ptr] ++ tr ++
        [Event.timing "copy_with_sse memcpy " (ms_figure took) (bw_figure took),
          Event.memcmp 0, Event.print "Compare ok", Event.free a1.ptr, Event.free a2.ptr]) := by
  refine bench_run_ok (fun w d s => copy_with_sse fuel w d s size) _ _ a1 a2 took w hv ?_
  intro w
  obtain ⟨w1, hrun, hmem, tr, hlog, _, htr⟩ := copy_with_sse_spec fuel size a1.ptr a2.ptr w
    (by rw [size_eq]) (by rw [size_eq]; decide) hfuel hv.2.2.1 hv.2.2.2.1
  exact ⟨w1, hrun, hmem hv.2.2.2.2, tr, hlog, htr⟩

theorem single_thread_memcpy_ok (a1 a2 : Alloc) (took : Int) (w : World)
    (hv : valid_pair a1 a2) :
    ∃ w1 tr, single_thread_memcpy a1 a2 took w = Result.ok () w1 ∧
      (∀ e ∈ tr, ∃ d s n, e = Event.memcpy d s n) ∧
      w1.log = w.log ++ ([Event.malloc size a1.ptr, Event.malloc size a2.ptr] ++ tr ++
        [Event.timing "Single thread memcpy " (ms_figure took) (bw_figure took),
          Event.memcmp 0, Event.print "Compare ok", Event.free a1.ptr, Event.free a2.ptr]) := by
  refine bench_run_ok (fun w d s => memcpy w d s size) _ _ a1 a2 took w hv ?_
  intro w
  exact ⟨_, rfl, rfl, [_], rfl, by simp⟩

theorem calls_mul_per_call_size : calls * per_call_size = size := by
  rw [per_call_size_eq, size_eq]; rfl

theorem single_thread_memcpy_multiple_ok (a1 a2 : Alloc) (took : Int) (w : World)
    (hv : valid_pair a1 a2) :
    ∃ w1 tr, single_thread_memcpy_multiple a1 a2 took w = Result.ok () w1 ∧
      (∀ e ∈ tr, ∃ d s n, e = Event.memcpy d s n) ∧
      w1.log = w.log ++ ([Event.malloc size a1.ptr, Event.malloc size a2.ptr] ++ tr ++
        [Event.timing "Single thread memcpy multicall" (ms_figure took) (bw_figure took),
          Event.memcmp 0, Event.print "Compare ok", Event.free a1.ptr, Event.free a2.ptr]) := by
  have hcopy : ∀ w : World, ∃ w1,
      memcpy_loop calls per_call_size a1.ptr a2.ptr w = Outcome.done w1 ∧
      w1.mem = copy_bytes w.mem a1.ptr a2.ptr size ∧
      ∃ tr, w1.log = w.log ++ tr ∧ ∀ e ∈ tr, ∃ d s n, e = Event.memcpy d s n := by
    intro w
    obtain ⟨w1, hrun, hmem, tr, hlog, _, htr⟩ := memcpy_loop_spec per_call_size a1.ptr a2.ptr
      calls w (by rw [calls_mul_per_call_size, size_eq]; decide)
      (by rw [calls_mul_per_call_size]; exact hv.2.2.2.2)
    rw [calls_mul_per_call_size] at hmem
    exact ⟨w1, hrun, hmem, tr, hlog, fun e he => by
      obtain ⟨d, s, h⟩ := htr e he
      exact ⟨d, s, _, h⟩⟩
  unfold single_thread_memcpy_multiple
  generalize memcpy_loop calls per_call_size = loop at hcopy ⊢
  exact bench_run_ok (fun w d s => loop d s w) _ _ a1 a2 took w hv hcopy

theorem multithread_memcpy_ok (name : String) (order : List Nat)
    (hperm : order.Perm (List.range workers_number)) (a1 a2 : Alloc) (took : Int) (w : World)
    (hv : valid_pair a1 a2) :
    ∃ w1 tr, multithread_copy_helper memcpy name order a1 a2 took w = Result.ok () w1 ∧
      (∀ e ∈ tr, is_access e = true) ∧
      w1.log = w.log ++ ([Event.malloc size a1.ptr, Event.malloc size a2.ptr] ++ tr ++
        [Event.timing ("Multithread " ++ name ++ " thread memcpy") (ms_figure took)
          (bw_figure took),
          Event.memcmp 0, Event.print "Compare ok", Event.free a1.ptr, Event.free a2.ptr]) := by
  refine bench_run_ok
    (fun w d s => run_workers (workers memcpy d s per_worker_size) order w) _ _ a1 a2 took w
    hv ?_
  intro w
  exact run_workers_perm memcpy a1.ptr a2.ptr _ hv.2.2.2.2
    (fun i hi w => memcpy_worker a1.ptr a2.ptr i hi w) order hperm w

theorem multithread_sse_ok (fuel : Nat) (hfuel : per_worker_size / 128 ≤ fuel) (name : String)
    (order : List Nat) (hperm : order.Perm (List.range workers_number)) (a1 a2 : Alloc)
    (took : Int) (w : World) (hv : valid_pair a1 a2) :
    ∃ w1 tr, multithread_copy_helper (copy_with_sse fuel) name order a1 a2 took w =
        Result.ok () w1 ∧
      (∀ e ∈ tr, ∃ i, i < workers_number ∧
        within_sse (a1.ptr + i * 1610612736) (a2.ptr + i * 1610612736) 1610612736 e) ∧
      w1.log = w.log ++ ([Event.malloc size a1.ptr, Event.malloc size a2.ptr] ++ tr ++
        [Event.timing ("Multithread " ++ name ++ " thread memcpy") (ms_figure took)
          (bw_figure took),
          Event.memcmp 0, Event.print "Compare ok", Event.free a1.ptr, Event.free a2.ptr]) := by
  refine bench_run_ok
    (fun w d s => run_workers (workers (copy_with_sse fuel) d s per_worker_size) order w)
    _ _ a1 a2 took w hv ?_
  intro w
  refine run_workers_perm (copy_with_sse fuel) a1.ptr a2.ptr _ hv.2.2.2.2 ?_ order hperm w
  intro i hi w
  obtain ⟨w1, hrun, hmem, tr, hlog, htr⟩ :=
    copy_with_sse_worker fuel hfuel a1.ptr a2.ptr hv.2.2.2.2 hv.2.2.1 hv.2.2.2.1 i hi w
  exact ⟨w1, hrun, hmem, tr, hlog, fun e he => ⟨i, hi, htr e he⟩⟩

/-! ## Sequences of passed runs -/

theorem passed_runs_nil (w w1 : World) (e : Event) (hlog : w1.log = w.log ++ [e])
    (h1 : ∀ name ms bw, e ≠ Event.timing name ms bw) (h2 : ∀ res, e ≠ Event.memcmp res)
    (h3 : e ≠ Event.print "Compare ok") (h4 : e ≠ Event.print "Error in compare") :
    passed_runs [] w w1 := by
  refine ⟨?_, ?_, ?_, ?_⟩
  · rw [hlog]
    cases e <;> simp [timing_names] at h1 ⊢
  · rw [hlog]
    cases e <;> simp [memcmp_results] at h2 ⊢
  · rw [hlog]
    simp only [compare_ok_count, List.count_append, List.length_nil, Nat.add_zero,
      Nat.add_right_eq_self]
    exact List.count_eq_zero.mpr (by simpa using Ne.symm h3)
  · rw [hlog]
    simp only [compare_error_count, List.count_append, Nat.add_right_eq_self]
    exact List.count_eq_zero.mpr (by simpa using Ne.symm h4)

theorem passed_runs_refl (w : World) : passed_runs [] w w := by
  simp [passed_runs]

theorem passed_runs_trans {ns ms : List String} {w w1 w2 : World}
    (h1 : passed_runs ns w w1) (h2 : passed_runs ms w1 w2) : passed_runs (ns ++ ms) w w2 := by
  obtain ⟨a1, b1, c1, d1⟩ := h1
  obtain ⟨a2, b2, c2, d2⟩ := h2
  refine ⟨?_, ?_, ?_, ?_⟩
  · rw [a2, a1, List.append_assoc]
  · rw [b2, b1, List.append_assoc, List.length_append, List.replicate_add]
  · rw [c2, c1, List.length_append, Nat.add_assoc]
  · rw [d2, d1]

theorem for_loop_succ (n first : Nat) (body : Nat → World → Result Unit) (w : World) :
    for_loop (n + 1) first body w =
      (for_loop n first body w).bind fun _ w => body (first + n) w := by
  simp [for_loop, List.range_succ, List.foldl_append]

/-- A loop of `n` runs that each pass is `n` passed runs. -/
theorem for_loop_passed (name : String) (first : Nat) (body : Nat → World → Result Unit) :
    ∀ n : Nat,
    (∀ r, first ≤ r → r < first + n → ∀ w, ∃ w1, body r w = Result.ok () w1 ∧
      passed_runs [name] w w1) →
    ∀ w, ∃ w1, for_loop n first body w = Result.ok () w1 ∧
      passed_runs (List.replicate n name) w w1 := by
  intro n
  induction n with
  | zero =>
    intro _ w
    exact ⟨w, rfl, passed_runs_refl w⟩
  | succ n ih =>
    intro hbody w
    obtain ⟨w1, hrun, hp⟩ := ih (fun r h1 h2 => hbody r h1 (by omega)) w
    obtain ⟨w2, hrun2, hp2⟩ := hbody (first + n) (by omega) (by omega) w1
    refine ⟨w2, ?_, ?_⟩
    · rw [for_loop_succ, hrun]
      exact hrun2
    · have := passed_runs_trans hp hp2
      rwa [← List.replicate_succ'] at this

theorem single_thread_sse_passed (fuel : Nat) (hfuel : size / 128 ≤ fuel) (a1 a2 : Alloc)
    (took : Int) (w : World) (hv : valid_pair a1 a2) :
    ∃ w1, single_thread_sse fuel a1 a2 took w = Result.ok () w1 ∧
      passed_runs ["copy_with_sse memcpy "] w w1 := by
  obtain ⟨w1, tr, hrun, htr, hlog⟩ := single_thread_sse_ok fuel hfuel a1 a2 took w hv
  exact ⟨w1, hrun, passed_runs_of_log _ w w1 tr _ _ _ _
    (fun e he => within_sse_access (htr e he)) hlog⟩

theorem is_access_memcpy {e : Event} (h : ∃ d s n, e = Event.memcpy d s n) :
    is_access e = true := by
  obtain ⟨d, s, n, rfl⟩ := h
  rfl

theorem single_thread_memcpy_passed (a1 a2 : Alloc) (took : Int) (w : World)
    (hv : valid_pair a1 a2) :
    ∃ w1, single_thread_memcpy a1 a2 took w = Result.ok () w1 ∧
      passed_runs ["Single thread memcpy "] w w1 := by
  obtain ⟨w1, tr, hrun, htr, hlog⟩ := single_thread_memcpy_ok a1 a2 took w hv
  exact ⟨w1, hrun, passed_runs_of_log _ w w1 tr _ _ _ _
    (fun e he => is_access_memcpy (htr e he)) hlog⟩

theorem single_thread_memcpy_multiple_passed (a1 a2 : Alloc) (took : Int) (w : World)
    (hv : valid_pair a1 a2) :
    ∃ w1, single_thread_memcpy_multiple a1 a2 took w = Result.ok () w1 ∧
      passed_runs ["Single thread memcpy multicall"] w w1 := by
  obtain ⟨w1, tr, hrun, htr, hlog⟩ := single_thread_memcpy_multiple_ok a1 a2 took w hv
  exact ⟨w1, hrun, passed_runs_of_log _ w w1 tr _ _ _ _
    (fun e he => is_access_memcpy (htr e he)) hlog⟩

theorem multithread_memcpy_passed (order : List Nat)
    (hperm : order.Perm (List.range workers_number)) (a1 a2 : Alloc) (took : Int) (w : World)
    (hv : valid_pair a1 a2) :
    ∃ w1, multithread_copy_helper memcpy "memcpy" order a1 a2 took w = Result.ok () w1 ∧
      passed_runs ["Multithread memcpy thread memcpy"] w w1 := by
  obtain ⟨w1, tr, hrun, htr, hlog⟩ := multithread_memcpy_ok "memcpy" order hperm a1 a2 took w hv
  exact ⟨w1, hrun, passed_runs_of_log _ w w1 tr _ _ _ _ htr hlog⟩

theorem multithread_sse_passed (fuel : Nat) (hfuel : per_worker_size / 128 ≤ fuel)
    (order : List Nat) (hperm : order.Perm (List.range workers_number)) (a1 a2 : Alloc)
    (took : Int) (w : World) (hv : valid_pair a1 a2) :
    ∃ w1, multithread_copy_helper (copy_with_sse fuel) "sse" order a1 a2 took w =
        Result.ok () w1 ∧
      passed_runs ["Multithread sse thread memcpy"] w w1 := by
  obtain ⟨w1, tr, hrun, htr, hlog⟩ :=
    multithread_sse_ok fuel hfuel "sse" order hperm a1 a2 took w hv
  refine ⟨w1, hrun, passed_runs_of_log _ w w1 tr _ _ _ _ ?_ hlog⟩
  intro e he
  obtain ⟨i, _, h⟩ := htr e he
  exact within_sse_access h

/-- The whole of `main`, when every allocation succeeds: it returns after 40
passed runs, eight of each strategy. -/
theorem main_passes (env : Env) (fuel : Nat) (w : World) (hfuel : size / 128 ≤ fuel)
    (halloc : ∀ r, r < 5 * repetitions →
      valid_pair (env.alloc (2 * r)) (env.alloc (2 * r + 1)))
    (horder : ∀ r, 3 * repetitions ≤ r → r < 5 * repetitions →
      (env.order r).Perm (List.range workers_number)) :
    ∃ w1, main env fuel w = Result.ok () w1 ∧
      passed_runs
        (List.replicate repetitions "copy_with_sse memcpy " ++
          (List.replicate repetitions "Single thread memcpy " ++
            (List.replicate repetitions "Single thread memcpy multicall" ++
              (List.replicate repetitions "Multithread memcpy thread memcpy" ++
                List.replicate repetitions "Multithread sse thread memcpy")))) w w1 := by
  have hrep : repetitions = 8 := rfl
  have hfuel2 : per_worker_size / 128 ≤ fuel := by
    rw [per_worker_size_eq]; rw [size_eq] at hfuel; omega
  have hp0 : passed_runs [] w (cout w ("Memcpy test -- copying " ++ toString size_gb ++ "GB ")) :=
    passed_runs_nil _ _ _ rfl (by simp) (by simp) (by decide) (by decide)
  obtain ⟨w1, hr1, hp1⟩ := for_loop_passed "copy_with_sse memcpy " (0 * repetitions)
    (nth_run env (single_thread_sse fuel)) repetitions
    (fun r _ h2 w => single_thread_sse_passed fuel hfuel _ _ _ w (halloc r (by omega)))
    (cout w ("Memcpy test -- copying " ++ toString size_gb ++ "GB "))
  obtain ⟨w2, hr2, hp2⟩ := for_loop_passed "Single thread memcpy " (1 * repetitions)
    (nth_run env single_thread_memcpy) repetitions
    (fun r _ h2 w => single_thread_memcpy_passed _ _ _ w (halloc r (by omega))) w1
  obtain ⟨w3, hr3, hp3⟩ := for_loop_passed "Single thread memcpy multicall" (2 * repetitions)
    (nth_run env single_thread_memcpy_multiple) repetitions
    (fun r _ h2 w => single_thread_memcpy_multiple_passed _ _ _ w (halloc r (by omega))) w2
  obtain ⟨w4, hr4, hp4⟩ := for_loop_passed "Multithread memcpy thread memcpy" (3 * repetitions)
    (fun r => nth_run env (multithread_copy_helper memcpy "memcpy" (env.order r)) r) repetitions
    (fun r h1 h2 w => multithread_memcpy_passed _ (horder r (by omega) (by omega)) _ _ _ w
      (halloc r (by omega))) w3
  obtain ⟨w5, hr5, hp5⟩ := for_loop_passed "Multithread sse thread memcpy" (4 * repetitions)
    (fun r => nth_run env (multithread_copy_helper (copy_with_sse fuel) "sse" (env.order r)) r)
    repetitions
    (fun r h1 h2 w => multithread_sse_passed fuel hfuel2 _ (horder r (by omega) (by omega))
      _ _ _ w (halloc r (by omega))) w4
  refine ⟨w5, ?_, ?_⟩
  · simp only [main, hr1, hr2, hr3, hr4, Result.bind]
    exact hr5
  · have h := passed_runs_trans hp0 (passed_runs_trans hp1 (passed_runs_trans hp2
      (passed_runs_trans hp3 (passed_runs_trans hp4 hp5))))
    rwa [List.nil_append] at h

/-! ## Alignment of the vector accesses -/

theorem load_addrs_run (tr : List Event) (n p1 p2 : Nat) (name line : String) (ms : ℚ)
    (bw : Option ℚ) (res : Int) :
    load_addrs ([Event.malloc n p1, Event.malloc n p2] ++ tr ++
      [Event.timing name ms bw, Event.memcmp res, Event.print line, Event.free p1,
        Event.free p2]) = load_addrs tr := by
  simp [load_addrs, List.filterMap_append]

theorem store_addrs_run (tr : List Event) (n p1 p2 : Nat) (name line : String) (ms : ℚ)
    (bw : Option ℚ) (res : Int) :
    store_addrs ([Event.malloc n p1, Event.malloc n p2] ++ tr ++
      [Event.timing name ms bw, Event.memcmp res, Event.print line, Event.free p1,
        Event.free p2]) = store_addrs tr := by
  simp [store_addrs, List.filterMap_append]

theorem load_addrs_aligned {tr : List Event} {P : Event → Prop}
    (htr : ∀ e ∈ tr, P e) (hP : ∀ a, P (Event.load a) → a % 16 = 0) :
    ∀ a ∈ load_addrs tr, a % 16 = 0 := by
  intro a ha
  simp only [load_addrs, List.mem_filterMap] at ha
  obtain ⟨e, he, hea⟩ := ha
  have := htr e he
  cases e <;> simp at hea
  subst hea
  exact hP _ this

theorem store_addrs_aligned {tr : List Event} {P : Event → Prop}
    (htr : ∀ e ∈ tr, P e) (hP : ∀ a, P (Event.store a) → a % 16 = 0) :
    ∀ a ∈ store_addrs tr, a % 16 = 0 := by
  intro a ha
  simp only [store_addrs, List.mem_filterMap] at ha
  obtain ⟨e, he, hea⟩ := ha
  have := htr e he
  cases e <;> simp at hea
  subst hea
  exact hP _ this

/-! ## The size counter of `copy_with_sse` -/

/-- C10. The buffer size constant is exactly 12 GiB: the `int` sub-product
`1024 * 1024 * 1024` is `2 ^ 30` and fits in a signed 32-bit `int`, the final
product is formed in `uint64_t` without wrap-around, `size` is
`1024 * 1024 * 1024 * 12 = 12884901888`, and `size` is divisible by
`workers_number` (8), by `calls` (`2 ^ 20`) and by 128. -/
theorem C10_size_is_12_GiB :
    size_int_part = some (2 ^ 30) ∧
    u64_ofInt (2 ^ 30) * u64_ofInt size_gb < 2 ^ 64 ∧
    size = 1024 * 1024 * 1024 * 12 ∧
    size = 12884901888 ∧
    workers_number = 8 ∧ calls = 2 ^ 20 ∧
    size % workers_number = 0 ∧ size % calls = 0 ∧ size % 128 = 0 := by
  refine ⟨by decide, by decide, size_eq, size_eq, rfl, by decide, ?_, ?_, ?_⟩ <;>
    rw [size_eq] <;> decide

/-- C1, as stated, fails. The size 128 is a multiple of 128 and the buffers at
addresses 1 and 4097 do not overlap, but neither address is 16-byte aligned:
the first `_mm_load_ps` faults, so the call is killed in its first iteration
and, whatever number of iterations is allowed, it never returns with the
source copied. -/
theorem C1_copy_with_sse_misaligned_fails :
    128 % 128 = 0 ∧ 128 < 2 ^ 64 ∧ (1 + 128 ≤ 4097 ∨ 4097 + 128 ≤ 1) ∧
    copy_with_sse 1 ⟨fun a => a % 251, []⟩ 1 4097 128 = Outcome.fault ∧
    ¬ ∃ fuel w1, copy_with_sse fuel ⟨fun a => a % 251, []⟩ 1 4097 128 = Outcome.done w1 ∧
      ∀ k, k < 128 → w1.mem (1 + k) = (4097 + k) % 251 := by
  refine ⟨by decide, by decide, by decide,
    copy_with_sse_misaligned 0 _ 1 4097 128 (by decide) (Or.inl (by decide)), ?_⟩
  rintro ⟨fuel, w1, h, _⟩
  cases fuel with
  | zero =>
    rw [copy_with_sse_no_fuel _ _ _ _ (by decide)] at h
    exact Outcome.noConfusion h
  | succ k =>
    rw [copy_with_sse_misaligned k _ 1 4097 128 (by decide) (Or.inl (by decide))] at h
    exact Outcome.noConfusion h

/-- C1, amended. `copy_with_sse` copies correctly when its documented
preconditions hold: for every size `n` (a `size_t`) that is a multiple of 128
and every pair of non-overlapping, 16-byte aligned buffers `dst` and `src` of
`n` bytes, `copy_with_sse(dst, src, n)` returns (as soon as `n / 128`
iterations are allowed) and afterwards `dst[k]` equals the original `src[k]`
for every `k < n`. -/
theorem C1_copy_with_sse_copies_aligned (fuel n dst src : Nat) (w : World)
    (hmul : n % 128 = 0) (hn : n < 2 ^ 64) (hfuel : n / 128 ≤ fuel)
    (hda : dst % 16 = 0) (hsa : src % 16 = 0)
    (hdisj : dst + n ≤ src ∨ src + n ≤ dst) :
    ∃ w1, copy_with_sse fuel w dst src n = Outcome.done w1 ∧
      ∀ k, k < n → w1.mem (dst + k) = w.mem (src + k) := by
  obtain ⟨w1, hrun, hmem, _⟩ := copy_with_sse_spec fuel n dst src w hmul hn hfuel hda hsa
  refine ⟨w1, hrun, ?_⟩
  intro k hk
  rw [hmem hdisj]
  exact copy_bytes_at_dst _ _ _ _ _ hk

/-- C1, amended, at a concrete input: 256 bytes copied from address 8192 to
address 4096. -/
theorem C1_copy_with_sse_copies_aligned_witness :
    ∃ w1, copy_with_sse 2 ⟨fun a => a % 251, []⟩ 4096 8192 256 = Outcome.done w1 ∧
      ∀ k, k < 256 → w1.mem (4096 + k) = (8192 + k) % 251 :=
  C1_copy_with_sse_copies_aligned 2 256 4096 8192 ⟨fun a => a % 251, []⟩
    (by decide) (by decide) (by decide) (by decide) (by decide) (by decide)

/-- C2. In `multithread_copy_helper` the workers copy disjoint equal-sized
slices that together cover the whole buffer. With
`per_worker_size = size / workers_number`: there are `workers_number = 8`
workers, worker `i` copies `per_worker_size` bytes at offset
`i * per_worker_size` (the product does not wrap around); the ranges
`[i * per_worker_size, (i + 1) * per_worker_size)` all have length
`per_worker_size`, are pairwise disjoint, and their union is exactly
`[0, size)`; `workers_number * per_worker_size = size`. -/
theorem C2_worker_slices :
    workers_number = 8 ∧
    workers_number * per_worker_size = size ∧
    (∀ (function : World → Nat → Nat → Nat → Outcome) (dst src : Nat),
      (workers function dst src per_worker_size).length = workers_number ∧
      ∀ i, i < workers_number →
        (workers function dst src per_worker_size).get? i =
          some (fun w => function w (dst + i * per_worker_size) (src + i * per_worker_size)
            per_worker_size)) ∧
    (∀ i, i < workers_number → (i + 1) * per_worker_size - i * per_worker_size =
      per_worker_size) ∧
    (∀ i j, i < workers_number → j < workers_number → i ≠ j →
      ∀ k, ¬ ((i * per_worker_size ≤ k ∧ k < (i + 1) * per_worker_size) ∧
              (j * per_worker_size ≤ k ∧ k < (j + 1) * per_worker_size))) ∧
    (∀ k, k < size ↔
      ∃ i, i < workers_number ∧ i * per_worker_size ≤ k ∧ k < (i + 1) * per_worker_size) := by
  have hw : workers_number = 8 := rfl
  refine ⟨hw, ?_, ?_, ?_, ?_, ?_⟩
  · rw [per_worker_size_eq, size_eq, hw]
  · intro function dst src
    refine ⟨by simp [workers], ?_⟩
    intro i hi
    rw [workers_get _ _ _ _ _ hi, worker_offset_eq hi, per_worker_size_eq]
  · intro i _
    rw [per_worker_size_eq]; omega
  · intro i j hi hj hij k
    rw [per_worker_size_eq]
    rw [hw] at hi hj
    omega
  · intro k
    rw [per_worker_size_eq, size_eq, hw]
    constructor
    · intro hk
      exact ⟨k / 1610612736, by omega, by omega, by omega⟩
    · rintro ⟨i, hi, h1, h2⟩
      omega

/-- C3. The multithreaded copy gives the same result as one whole-buffer copy
regardless of worker order. For every memory, every pair of non-overlapping
buffers of `size` bytes and every permutation `order` of the 8 workers, worker
`i` copying `per_worker_size` bytes at offset `i * per_worker_size` with
`memcpy`, or with `copy_with_sse` (allowed to run its `per_worker_size / 128`
iterations, the buffers being 16-byte aligned as `malloc` returns them): all
workers return, the resulting memory is the memory after one `memcpy` of
`size` bytes, `dst` equals the original `src` and the final `src` on all
`size` bytes, and `src` is unchanged. -/
theorem C3_multithreaded_copy_any_order (fuel : Nat)
    (function : World → Nat → Nat → Nat → Outcome)
    (order : List Nat) (w : World) (dst src : Nat)
    (hfn : function = memcpy ∨
      (function = copy_with_sse fuel ∧ per_worker_size / 128 ≤ fuel ∧
        dst % 16 = 0 ∧ src % 16 = 0))
    (hperm : order.Perm (List.range workers_number))
    (hdisj : dst + size ≤ src ∨ src + size ≤ dst) :
    ∃ w1, run_workers (workers function dst src per_worker_size) order w = Outcome.done w1 ∧
      (∃ w2, memcpy w dst src size = Outcome.done w2 ∧ w1.mem = w2.mem) ∧
      (∀ k, k < size → w1.mem (dst + k) = w.mem (src + k)) ∧
      (∀ k, k < size → w1.mem (src + k) = w.mem (src + k)) ∧
      (∀ k, k < size → w1.mem (dst + k) = w1.mem (src + k)) := by
  have key : ∃ w1,
      run_workers (workers function dst src per_worker_size) order w = Outcome.done w1 ∧
      w1.mem = copy_bytes w.mem dst src size := by
    rcases hfn with rfl | ⟨rfl, hfuel, hda, hsa⟩
    · obtain ⟨w1, hrun, hmem, _⟩ := run_workers_perm memcpy dst src _ hdisj
        (fun i hi w => memcpy_worker dst src i hi w) order hperm w
      exact ⟨w1, hrun, hmem⟩
    · obtain ⟨w1, hrun, hmem, _⟩ := run_workers_perm (copy_with_sse fuel) dst src
        (fun _ => True) hdisj
        (fun i hi w => by
          obtain ⟨w1, hrun, hmem, tr, hlog, _⟩ :=
            copy_with_sse_worker fuel hfuel dst src hdisj hda hsa i hi w
          exact ⟨w1, hrun, hmem, tr, hlog, fun _ _ => True.intro⟩) order hperm w
      exact ⟨w1, hrun, hmem⟩
  obtain ⟨w1, hrun, hmem⟩ := key
  have hdst : ∀ k, k < size → w1.mem (dst + k) = w.mem (src + k) := by
    intro k hk
    rw [hmem]
    exact copy_bytes_at_dst _ _ _ _ _ hk
  have hsrc : ∀ k, k < size → w1.mem (src + k) = w.mem (src + k) := by
    intro k hk
    rw [hmem]
    exact copy_bytes_at_src _ _ _ _ _ hk hdisj
  exact ⟨w1, hrun, ⟨_, rfl, hmem⟩, hdst, hsrc, fun k hk => by rw [hdst k hk, hsrc k hk]⟩

/-- C3, at a concrete input: `copy_with_sse` workers taking effect in the order
3, 1, 0, 2, 7, 6, 5, 4, the destination at address 4096 and the source right
after it. -/
theorem C3_multithreaded_copy_any_order_witness :
    ∃ w1, run_workers
        (workers (copy_with_sse (per_worker_size / 128)) 4096 (4096 + size) per_worker_size)
        [3, 1, 0, 2, 7, 6, 5, 4] ⟨fun a => a % 251, []⟩ = Outcome.done w1 ∧
      (∃ w2, memcpy ⟨fun a => a % 251, []⟩ 4096 (4096 + size) size = Outcome.done w2 ∧
        w1.mem = w2.mem) ∧
      (∀ k, k < size → w1.mem (4096 + k) = (4096 + size + k) % 251) ∧
      (∀ k, k < size → w1.mem (4096 + size + k) = (4096 + size + k) % 251) ∧
      (∀ k, k < size → w1.mem (4096 + k) = w1.mem (4096 + size + k)) :=
  C3_multithreaded_copy_any_order (per_worker_size / 128)
    (copy_with_sse (per_worker_size / 128)) [3, 1, 0, 2, 7, 6, 5, 4]
    ⟨fun a => a % 251, []⟩ 4096 (4096 + size)
    (Or.inr ⟨rfl, Nat.le_refl _, by decide, by rw [size_eq]⟩) (by decide)
    (Or.inl (Nat.le_refl _))

/-- C4. The chunked single-threaded copy equals a single whole-buffer copy. In
`single_thread_memcpy_multiple`, with `per_call_size = size / calls`:
`calls * per_call_size = size`, no offset `i * per_call_size` wraps around in
64-bit unsigned arithmetic, and for every memory and every pair of
non-overlapping buffers the loop of `calls = 2 ^ 20` calls of `memcpy` returns,
has made exactly `calls` calls of `per_call_size` bytes each, leaves the memory
that one `memcpy` of `size` bytes leaves, and `dst` equals `src` on all `size`
bytes. -/
theorem C4_chunked_copy_is_whole_copy (w : World) (dst src : Nat)
    (hdisj : dst + size ≤ src ∨ src + size ≤ dst) :
    calls = 2 ^ 20 ∧ calls * per_call_size = size ∧
    (∀ i, i < calls → u64_mul i per_call_size = i * per_call_size) ∧
    ∃ w1, memcpy_loop calls per_call_size dst src w = Outcome.done w1 ∧
      (∃ tr, w1.log = w.log ++ tr ∧ tr.length = calls ∧
        ∀ e ∈ tr, ∃ d s, e = Event.memcpy d s per_call_size) ∧
      (∃ w2, memcpy w dst src size = Outcome.done w2 ∧ w1.mem = w2.mem) ∧
      (∀ k, k < size → w1.mem (dst + k) = w.mem (src + k)) ∧
      (∀ k, k < size → w1.mem (src + k) = w.mem (src + k)) ∧
      (∀ k, k < size → w1.mem (dst + k) = w1.mem (src + k)) := by
  have hc : calls = 1048576 := rfl
  obtain ⟨w1, hrun, hmem, htr⟩ := memcpy_loop_spec per_call_size dst src calls w
    (by rw [calls_mul_per_call_size, size_eq]; decide)
    (by rw [calls_mul_per_call_size]; exact hdisj)
  rw [calls_mul_per_call_size] at hmem
  have hdst : ∀ k, k < size → w1.mem (dst + k) = w.mem (src + k) := by
    intro k hk
    rw [hmem]
    exact copy_bytes_at_dst _ _ _ _ _ hk
  have hsrc : ∀ k, k < size → w1.mem (src + k) = w.mem (src + k) := by
    intro k hk
    rw [hmem]
    exact copy_bytes_at_src _ _ _ _ _ hk hdisj
  refine ⟨by rw [hc]; decide, calls_mul_per_call_size, ?_, w1, hrun, htr, ⟨_, rfl, hmem⟩,
    hdst, hsrc, fun k hk => by rw [hdst k hk, hsrc k hk]⟩
  intro i hi
  rw [per_call_size_eq]
  rw [hc] at hi
  exact u64_mul_small (by omega)

/-- C4, at a concrete input: the destination at address 4096 and the source
right after it. -/
theorem C4_chunked_copy_is_whole_copy_witness :
    calls = 2 ^ 20 ∧ calls * per_call_size = size ∧
    (∀ i, i < calls → u64_mul i per_call_size = i * per_call_size) ∧
    ∃ w1, memcpy_loop calls per_call_size 4096 (4096 + size) ⟨fun a => a % 251, []⟩ =
        Outcome.done w1 ∧
      (∃ tr, w1.log = [] ++ tr ∧ tr.length = calls ∧
        ∀ e ∈ tr, ∃ d s, e = Event.memcpy d s per_call_size) ∧
      (∃ w2, memcpy ⟨fun a => a % 251, []⟩ 4096 (4096 + size) size = Outcome.done w2 ∧
        w1.mem = w2.mem) ∧
      (∀ k, k < size → w1.mem (4096 + k) = (4096 + size + k) % 251) ∧
      (∀ k, k < size → w1.mem (4096 + size + k) = (4096 + size + k) % 251) ∧
      (∀ k, k < size → w1.mem (4096 + k) = w1.mem (4096 + size + k)) :=
  C4_chunked_copy_is_whole_copy ⟨fun a => a % 251, []⟩ 4096 (4096 + size)
    (Or.inl (Nat.le_refl _))

/-- C8. The reported timing figures are derived exactly from the elapsed
microseconds. For every elapsed time `took > 0` in whole microseconds,
`timed_scope` prints one line whose millisecond figure is `took / 1000` and
whose bandwidth figure `b` is finite and satisfies `b * took * 1000 = size`:
`b` is `size` bytes per `took * 1000` nanoseconds, that is `size / 10 ^ 9`
gigabytes per `took / 10 ^ 6` seconds. The figures are exact rationals. -/
theorem C8_timing_figures (name : String) (took : Int) (w : World) (h : 0 < took) :
    ∃ ms b : ℚ,
      timed_scope name took w = ⟨w.mem, w.log ++ [Event.timing name ms (some b)]⟩ ∧
      ms = (took : ℚ) / 1000 ∧
      b * (took : ℚ) * 1000 = (size : ℚ) ∧
      b = (size : ℚ) / ((took : ℚ) * 1000) ∧
      b = ((size : ℚ) / 10 ^ 9) / ((took : ℚ) / 10 ^ 6) := by
  have hne : took ≠ 0 := by omega
  have hq : (took : ℚ) ≠ 0 := by exact_mod_cast hne
  refine ⟨ms_figure took, (size : ℚ) / ((took : ℚ) * 1000), ?_, rfl, ?_, rfl, ?_⟩
  · simp [timed_scope, World.emit, bw_figure, hne]
  · field_simp
    ring
  · field_simp
    ring

/-- C8, at a concrete input: a run that took two seconds. -/
theorem C8_timing_figures_witness :
    ∃ ms b : ℚ,
      timed_scope "Single thread memcpy " 2000000 ⟨fun _ => 0, []⟩ =
        ⟨fun _ => 0, [] ++ [Event.timing "Single thread memcpy " ms (some b)]⟩ ∧
      ms = ((2000000 : Int) : ℚ) / 1000 ∧
      b * ((2000000 : Int) : ℚ) * 1000 = (size : ℚ) ∧
      b = (size : ℚ) / (((2000000 : Int) : ℚ) * 1000) ∧
      b = ((size : ℚ) / 10 ^ 9) / (((2000000 : Int) : ℚ) / 10 ^ 6) :=
  C8_timing_figures "Single thread memcpy " 2000000 ⟨fun _ => 0, []⟩ (by decide)

/-- C6. The driver runs five strategies a fixed number of times and the
correctness check always passes. Assuming every allocation succeeds (each run
gets two non-null, non-overlapping blocks, 16-byte aligned as `malloc` aligns
them), whatever the initial memory, the
contents of the fresh blocks, the elapsed times and the order in which the
workers of the multithreaded runs take effect: `main` returns normally after
exactly 40 benchmark runs, 8 repetitions each of `single_thread_sse`,
`single_thread_memcpy`, `single_thread_memcpy_multiple`, multithreaded `memcpy`
and multithreaded sse, in that order; each of the 40 `memcmp` results is zero;
`Compare ok` is printed exactly 40 times and `Error in compare` never. -/
theorem C6_main_forty_runs_pass (env : Env) (fuel : Nat) (m : Mem)
    (hfuel : size / 128 ≤ fuel)
    (halloc : ∀ r, r < 40 → valid_pair (env.alloc (2 * r)) (env.alloc (2 * r + 1)))
    (horder : ∀ r, 24 ≤ r → r < 40 → (env.order r).Perm (List.range workers_number)) :
    ∃ w1, main env fuel ⟨m, []⟩ = Result.ok () w1 ∧
      repetitions = 8 ∧
      timing_names w1.log =
        List.replicate 8 "copy_with_sse memcpy " ++
        List.replicate 8 "Single thread memcpy " ++
        List.replicate 8 "Single thread memcpy multicall" ++
        List.replicate 8 "Multithread memcpy thread memcpy" ++
        List.replicate 8 "Multithread sse thread memcpy" ∧
      (timing_names w1.log).length = 40 ∧
      memcmp_results w1.log = List.replicate 40 0 ∧
      compare_ok_count w1.log = 40 ∧
      compare_error_count w1.log = 0 := by
  have hrep : repetitions = 8 := rfl
  obtain ⟨w1, hrun, h1, h2, h3, h4⟩ := main_passes env fuel ⟨m, []⟩ hfuel
    (fun r hr => halloc r (by rw [hrep] at hr; omega))
    (fun r hr1 hr2 => horder r (by rw [hrep] at hr1; omega) (by rw [hrep] at hr2; omega))
  rw [hrep] at h1 h2 h3
  have e1 : timing_names w1.log =
      List.replicate 8 "copy_with_sse memcpy " ++
      List.replicate 8 "Single thread memcpy " ++
      List.replicate 8 "Single thread memcpy multicall" ++
      List.replicate 8 "Multithread memcpy thread memcpy" ++
      List.replicate 8 "Multithread sse thread memcpy" := by
    rw [h1]
    simp [timing_names]
  refine ⟨w1, hrun, hrep, e1, ?_, ?_, ?_, ?_⟩
  · rw [e1]
    simp
  · rw [h2]
    simp [memcmp_results]
  · rw [h3]
    simp [compare_ok_count]
  · rw [h4]
    simp [compare_error_count]

theorem sample_env_valid (r : Nat) :
    valid_pair (sample_env.alloc (2 * r)) (sample_env.alloc (2 * r + 1)) := by
  have h0 : (2 * r) % 2 = 0 := by omega
  have h1 : ¬ ((2 * r + 1) % 2 = 0) := by omega
  simp only [sample_env, h0, h1, if_true, if_false, valid_pair]
  exact ⟨by decide, by rw [size_eq]; decide, by decide, by rw [size_eq],
    Or.inl (Nat.le_refl _)⟩

/-- C6, at a concrete input: the sample environment and zeroed memory. -/
theorem C6_main_forty_runs_pass_witness :
    ∃ w1, main sample_env (size / 128) ⟨fun _ => 0, []⟩ = Result.ok () w1 ∧
      repetitions = 8 ∧
      timing_names w1.log =
        List.replicate 8 "copy_with_sse memcpy " ++
        List.replicate 8 "Single thread memcpy " ++
        List.replicate 8 "Single thread memcpy multicall" ++
        List.replicate 8 "Multithread memcpy thread memcpy" ++
        List.replicate 8 "Multithread sse thread memcpy" ∧
      (timing_names w1.log).length = 40 ∧
      memcmp_results w1.log = List.replicate 40 0 ∧
      compare_ok_count w1.log = 40 ∧
      compare_error_count w1.log = 0 :=
  C6_main_forty_runs_pass sample_env (size / 128) (fun _ => 0) (Nat.le_refl _)
    (fun r _ => sample_env_valid r)
    (fun _ _ _ => (by decide : [7, 6, 5, 4, 3, 2, 1, 0].Perm (List.range workers_number)))

/-- C7. The documented preconditions of `copy_with_sse` hold at every call
site. The size passed by `single_thread_sse` (`size`) and the size passed by
each multithreaded worker (`per_worker_size`) are multiples of 128; for every
worker `i` the offset `i * per_worker_size` is a multiple of 16, so with the
buffers 16-byte aligned the pointers of every call are 16-byte aligned; with
aligned pointers one loop iteration makes its 8 loads and 8 stores, all at
aligned addresses, and with a misaligned pointer it faults; and the whole of
`single_thread_sse` and of the multithreaded sse run returns without a fault,
every vector load and every vector store being at a 16-byte aligned
address. -/
theorem C7_sse_preconditions_hold (fuel : Nat) (order : List Nat) (a1 a2 : Alloc) (took : Int)
    (w : World) (hv : valid_pair a1 a2)
    (hfuel : size / 128 ≤ fuel) (hperm : order.Perm (List.range workers_number)) :
    size % 128 = 0 ∧ per_worker_size % 128 = 0 ∧
    (∀ i, i < workers_number →
      u64_mul i per_worker_size % 16 = 0 ∧
      (a1.ptr + u64_mul i per_worker_size) % 16 = 0 ∧
      (a2.ptr + u64_mul i per_worker_size) % 16 = 0) ∧
    (∀ (w0 : World) (dst src : Nat), dst % 16 = 0 → src % 16 = 0 →
      ∃ w1 tr, copy_with_sse_body w0 dst src = some w1 ∧ w1.log = w0.log ++ tr ∧
        (load_addrs tr).length = 8 ∧ (store_addrs tr).length = 8 ∧
        (∀ a ∈ load_addrs tr, a % 16 = 0) ∧ (∀ a ∈ store_addrs tr, a % 16 = 0)) ∧
    (∀ (w0 : World) (dst src : Nat), dst % 16 ≠ 0 ∨ src % 16 ≠ 0 →
      copy_with_sse_body w0 dst src = none) ∧
    (∃ w1 tr, single_thread_sse fuel a1 a2 took w = Result.ok () w1 ∧
      w1.log = w.log ++ tr ∧
      (∀ a ∈ load_addrs tr, a % 16 = 0) ∧ (∀ a ∈ store_addrs tr, a % 16 = 0)) ∧
    (∃ w1 tr, multithread_copy_helper (copy_with_sse fuel) "sse" order a1 a2 took w =
        Result.ok () w1 ∧
      w1.log = w.log ++ tr ∧
      (∀ a ∈ load_addrs tr, a % 16 = 0) ∧ (∀ a ∈ store_addrs tr, a % 16 = 0)) := by
  have hfuel2 : per_worker_size / 128 ≤ fuel := by
    rw [per_worker_size_eq]; rw [size_eq] at hfuel; omega
  have h1 : a1.ptr % 16 = 0 := hv.2.2.1
  have h2 : a2.ptr % 16 = 0 := hv.2.2.2.1
  refine ⟨by rw [size_eq], by rw [per_worker_size_eq], ?_, ?_,
    fun w0 dst src h => copy_with_sse_body_misaligned w0 dst src h, ?_, ?_⟩
  · intro i hi
    rw [worker_offset_eq hi]
    omega
  · intro w0 dst src hd hs
    obtain ⟨w1, hb, _, hlog⟩ := copy_with_sse_body_aligned w0 dst src hd hs
    refine ⟨w1, _, hb, hlog, by simp [load_addrs], by simp [store_addrs], ?_, ?_⟩
    · intro a ha
      simp [load_addrs] at ha
      omega
    · intro a ha
      simp [store_addrs] at ha
      omega
  · obtain ⟨w1, tr, hrun, htr, hlog⟩ := single_thread_sse_ok fuel hfuel a1 a2 took w hv
    refine ⟨w1, _, hrun, hlog, ?_, ?_⟩
    · rw [load_addrs_run]
      exact load_addrs_aligned htr (fun a h => by simp only [within_sse] at h; omega)
    · rw [store_addrs_run]
      exact store_addrs_aligned htr (fun a h => by simp only [within_sse] at h; omega)
  · obtain ⟨w1, tr, hrun, htr, hlog⟩ :=
      multithread_sse_ok fuel hfuel2 "sse" order hperm a1 a2 took w hv
    refine ⟨w1, _, hrun, hlog, ?_, ?_⟩
    · rw [load_addrs_run]
      exact load_addrs_aligned htr (fun a h => by
        obtain ⟨i, _, h⟩ := h
        simp only [within_sse] at h
        omega)
    · rw [store_addrs_run]
      exact store_addrs_aligned htr (fun a h => by
        obtain ⟨i, _, h⟩ := h
        simp only [within_sse] at h
        omega)

/-- C7, at a concrete input: the blocks of the sample environment, which are
16-byte aligned, and the workers in reverse order. -/
theorem C7_sse_preconditions_hold_witness :
    size % 128 = 0 ∧ per_worker_size % 128 = 0 ∧
    (∀ i, i < workers_number →
      u64_mul i per_worker_size % 16 = 0 ∧
      ((sample_env.alloc 0).ptr + u64_mul i per_worker_size) % 16 = 0 ∧
      ((sample_env.alloc 1).ptr + u64_mul i per_worker_size) % 16 = 0) ∧
    (∀ (w0 : World) (dst src : Nat), dst % 16 = 0 → src % 16 = 0 →
      ∃ w1 tr, copy_with_sse_body w0 dst src = some w1 ∧ w1.log = w0.log ++ tr ∧
        (load_addrs tr).length = 8 ∧ (store_addrs tr).length = 8 ∧
        (∀ a ∈ load_addrs tr, a % 16 = 0) ∧ (∀ a ∈ store_addrs tr, a % 16 = 0)) ∧
    (∀ (w0 : World) (dst src : Nat), dst % 16 ≠ 0 ∨ src % 16 ≠ 0 →
      copy_with_sse_body w0 dst src = none) ∧
    (∃ w1 tr, single_thread_sse (size / 128) (sample_env.alloc 0) (sample_env.alloc 1) 5
        ⟨fun _ => 0, []⟩ = Result.ok () w1 ∧
      w1.log = [] ++ tr ∧
      (∀ a ∈ load_addrs tr, a % 16 = 0) ∧ (∀ a ∈ store_addrs tr, a % 16 = 0)) ∧
    (∃ w1 tr, multithread_copy_helper (copy_with_sse (size / 128)) "sse"
        [7, 6, 5, 4, 3, 2, 1, 0] (sample_env.alloc 0) (sample_env.alloc 1) 5
        ⟨fun _ => 0, []⟩ = Result.ok () w1 ∧
      w1.log = [] ++ tr ∧
      (∀ a ∈ load_addrs tr, a % 16 = 0) ∧ (∀ a ∈ store_addrs tr, a % 16 = 0)) :=
  C7_sse_preconditions_hold (size / 128) [7, 6, 5, 4, 3, 2, 1, 0] (sample_env.alloc 0)
    (sample_env.alloc 1) 5 ⟨fun _ => 0, []⟩ (sample_env_valid 0) (Nat.le_refl _) (by decide)

end MemcpyBenchmark
